import Mathlib

/-!
Verification of the taskforge dependency-aware task execution engine.

The development shallowly embeds the three components of the library:

* `src/taskforge/task.py` — the unit of work: status machine, cancel flag,
  hooks, and the driver `execute_task`;
* `src/taskforge/scheduler.py` — the bidirectional dependency graph, the
  readiness iterator `ready_tasks`, the cascade hooks, and the cycle check
  `has_cycles` (Kahn's algorithm);
* `src/taskforge/executor.py` — the tag-partitioned pool dispatcher.

Python dicts are modelled as insertion-ordered association lists, Python
ints as `Int`, sets of task objects as lists of their ids deduplicated at
construction (the source's equality and hashing are by `task_id` alone).
-/

/-- `TaskStatus` from `task.py`. -/
inductive TaskStatus
  | pending
  | scheduled
  | running
  | failed
  | completed
  | canceled
deriving DecidableEq, Repr

/-- A status is terminal when it is COMPLETED, FAILED or CANCELED; this is the
set the readiness scan in `Scheduler.ready_tasks` tests prerequisites
against. -/
def terminalStatus : TaskStatus → Bool
  | .completed => true
  | .failed => true
  | .canceled => true
  | _ => false

/-! ## Unit-level model of `Task.execute_task`

`α` is the type of values returned by the user's `execute`, `ε` the type of
raised exception values.  A hook is an optional callback; invoking it either
returns normally (`none`) or raises an exception (`some e`) — Python
callbacks may do either. -/

/-- The mutable fields of one `Task` object that `execute_task` touches:
`__task_status`, `__task_result` (a returned value `.ok v` or a stored
exception `.error e`) and the `__canceled_event` flag. -/
structure TaskObj (α ε : Type) where
  taskStatus : TaskStatus
  taskResult : Option (Except ε α)
  canceledEvent : Bool

/-- The three optional callbacks `__on_task_completed`, `__on_task_failed`,
`__on_task_canceled` registered on a task.  A callback receives the task and
either returns (`none`) or raises an exception value (`some e`). -/
structure Hooks (α ε : Type) where
  onCompleted : Option (TaskObj α ε → Option ε)
  onFailed : Option (TaskObj α ε → Option ε)
  onCanceled : Option (TaskObj α ε → Option ε)

/-- Everything observable about one call to `execute_task`: the final field
values of the task, whether the user's `execute` ran, which hooks were
invoked, and the exception (if any) that escaped `execute_task` itself. -/
structure ExecOutcome (α ε : Type) where
  final : TaskObj α ε
  performCalled : Bool
  firedCompleted : Bool
  firedFailed : Bool
  firedCanceled : Bool
  raised : Option ε

/-- The `except` branch of `execute_task`: store the exception as the result,
transition to FAILED and invoke the failed hook if registered.  An exception
raised by the failed hook itself is not inside any `try` and escapes. -/
def failBranch (t : TaskObj α ε) (e : ε) (hooks : Hooks α ε)
    (performCalled firedCompleted : Bool) : ExecOutcome α ε :=
  let t3 : TaskObj α ε := { t with taskResult := some (.error e), taskStatus := .failed }
  match hooks.onFailed with
  | none => ⟨t3, performCalled, firedCompleted, false, false, none⟩
  | some h => ⟨t3, performCalled, firedCompleted, true, false, h t3⟩

/-- `Task.execute_task` from `task.py`, with the user's `execute` supplied as
its pure outcome `perform` (`.ok v`: returned `v`; `.error e`: raised `e`).

If the cancel flag is set: status becomes CANCELED and the canceled hook is
invoked (outside any `try`, so its exception escapes).  Otherwise status
becomes RUNNING and `execute` runs inside `try`: on a value, the result is
stored, status becomes COMPLETED and the completed hook is invoked — still
inside the `try`, so an exception the completed hook raises is caught by the
same `except` and handled as a failure; on an exception, the `except` branch
runs `failBranch`. -/
def execute_task (t : TaskObj α ε) (perform : Except ε α) (hooks : Hooks α ε) :
    ExecOutcome α ε :=
  if t.canceledEvent then
    let t1 : TaskObj α ε := { t with taskStatus := .canceled }
    match hooks.onCanceled with
    | none => ⟨t1, false, false, false, false, none⟩
    | some h => ⟨t1, false, false, false, true, h t1⟩
  else
    let t1 : TaskObj α ε := { t with taskStatus := .running }
    match perform with
    | .ok v =>
      let t2 : TaskObj α ε := { t1 with taskResult := some (.ok v), taskStatus := .completed }
      match hooks.onCompleted with
      | none => ⟨t2, true, false, false, false, none⟩
      | some h =>
        match h t2 with
        | none => ⟨t2, true, true, false, false, none⟩
        | some e => failBranch t2 e hooks true true
    | .error e => failBranch t1 e hooks true false

/-- A set of hooks none of which ever raises when invoked. -/
def HooksNoRaise (hooks : Hooks α ε) : Prop :=
  (∀ h, hooks.onCompleted = some h → ∀ u, h u = none) ∧
  (∀ h, hooks.onFailed = some h → ∀ u, h u = none) ∧
  (∀ h, hooks.onCanceled = some h → ∀ u, h u = none)

/-- C3: if the cancel flag is set when `execute_task` starts, the unit is
CANCELED, only the canceled hook fires, `execute` is not called and the
result field is left untouched (in particular unset if it was unset). -/
theorem C3_cancel_flag_short_circuit {α ε : Type} (t : TaskObj α ε)
    (perform : Except ε α) (hooks : Hooks α ε)
    (hc : t.canceledEvent = true) :
    (execute_task t perform hooks).final.taskStatus = .canceled ∧
    (execute_task t perform hooks).performCalled = false ∧
    (execute_task t perform hooks).firedCompleted = false ∧
    (execute_task t perform hooks).firedFailed = false ∧
    (hooks.onCanceled.isSome → (execute_task t perform hooks).firedCanceled = true) ∧
    (execute_task t perform hooks).final.taskResult = t.taskResult := by
  unfold execute_task
  rw [hc]
  cases h : hooks.onCanceled <;> simp

/-- Witness for C3 at a concrete input. -/
theorem C3_cancel_flag_short_circuit_witness :
    (⟨TaskStatus.pending, none, true⟩ : TaskObj Nat Nat).canceledEvent = true ∧
    ((execute_task (⟨TaskStatus.pending, none, true⟩ : TaskObj Nat Nat) (.ok 5)
        ⟨some fun _ => none, some fun _ => none, some fun _ => none⟩).final.taskStatus
      = .canceled ∧
    (execute_task (⟨TaskStatus.pending, none, true⟩ : TaskObj Nat Nat) (.ok 5)
        ⟨some fun _ => none, some fun _ => none, some fun _ => none⟩).performCalled = false ∧
    (execute_task (⟨TaskStatus.pending, none, true⟩ : TaskObj Nat Nat) (.ok 5)
        ⟨some fun _ => none, some fun _ => none, some fun _ => none⟩).firedCompleted = false ∧
    (execute_task (⟨TaskStatus.pending, none, true⟩ : TaskObj Nat Nat) (.ok 5)
        ⟨some fun _ => none, some fun _ => none, some fun _ => none⟩).firedFailed = false ∧
    ((⟨some fun _ => none, some fun _ => none, some fun _ => none⟩ :
        Hooks Nat Nat).onCanceled.isSome →
      (execute_task (⟨TaskStatus.pending, none, true⟩ : TaskObj Nat Nat) (.ok 5)
        ⟨some fun _ => none, some fun _ => none, some fun _ => none⟩).firedCanceled = true) ∧
    (execute_task (⟨TaskStatus.pending, none, true⟩ : TaskObj Nat Nat) (.ok 5)
        ⟨some fun _ => none, some fun _ => none, some fun _ => none⟩).final.taskResult
      = (⟨TaskStatus.pending, none, true⟩ : TaskObj Nat Nat).taskResult) :=
  ⟨rfl, C3_cancel_flag_short_circuit _ _ _ rfl⟩

/-- C4: with the cancel flag clear and hooks that do not raise, a value `v`
returned by `execute` is stored with status COMPLETED and the completed hook
fires; an exception `e` raised by `execute` is captured (nothing escapes
`execute_task`), stored as the result with status FAILED, and the failed hook
fires. -/
theorem C4_perform_outcome_handling {α ε : Type} (t : TaskObj α ε)
    (perform : Except ε α) (hooks : Hooks α ε)
    (hc : t.canceledEvent = false) (hnr : HooksNoRaise hooks) :
    (∀ v, perform = .ok v →
      (execute_task t perform hooks).final.taskResult = some (.ok v) ∧
      (execute_task t perform hooks).final.taskStatus = .completed ∧
      (hooks.onCompleted.isSome → (execute_task t perform hooks).firedCompleted = true) ∧
      (execute_task t perform hooks).firedFailed = false ∧
      (execute_task t perform hooks).firedCanceled = false ∧
      (execute_task t perform hooks).raised = none) ∧
    (∀ e, perform = .error e →
      (execute_task t perform hooks).final.taskResult = some (.error e) ∧
      (execute_task t perform hooks).final.taskStatus = .failed ∧
      (hooks.onFailed.isSome → (execute_task t perform hooks).firedFailed = true) ∧
      (execute_task t perform hooks).firedCompleted = false ∧
      (execute_task t perform hooks).firedCanceled = false ∧
      (execute_task t perform hooks).raised = none) := by
  obtain ⟨hcmp, hfl, -⟩ := hnr
  constructor
  · rintro v rfl
    unfold execute_task
    rw [hc]
    simp only [Bool.false_eq_true, if_false]
    cases h : hooks.onCompleted with
    | none => simp
    | some hk =>
      have := hcmp hk h
      simp [this]
  · rintro e rfl
    unfold execute_task failBranch
    rw [hc]
    simp only [Bool.false_eq_true, if_false]
    cases h : hooks.onFailed with
    | none => simp
    | some hk =>
      have := hfl hk h
      simp [h, this]

/-- Witness for C4 at a concrete input: an uncancelled task whose `execute`
raises `7`, with the three hooks installed and silent. -/
theorem C4_perform_outcome_handling_witness :
    ((⟨TaskStatus.pending, none, false⟩ : TaskObj Nat Nat).canceledEvent = false ∧
      HooksNoRaise (⟨some fun _ => none, some fun _ => none, some fun _ => none⟩ :
        Hooks Nat Nat)) ∧
    (execute_task (⟨TaskStatus.pending, none, false⟩ : TaskObj Nat Nat) (.error 7)
        ⟨some fun _ => none, some fun _ => none, some fun _ => none⟩).final.taskResult
      = some (.error 7) ∧
    (execute_task (⟨TaskStatus.pending, none, false⟩ : TaskObj Nat Nat) (.error 7)
        ⟨some fun _ => none, some fun _ => none, some fun _ => none⟩).final.taskStatus
      = .failed ∧
    (execute_task (⟨TaskStatus.pending, none, false⟩ : TaskObj Nat Nat) (.error 7)
        ⟨some fun _ => none, some fun _ => none, some fun _ => none⟩).firedFailed = true ∧
    (execute_task (⟨TaskStatus.pending, none, false⟩ : TaskObj Nat Nat) (.error 7)
        ⟨some fun _ => none, some fun _ => none, some fun _ => none⟩).raised = none := by
  have hnr : HooksNoRaise (⟨some fun _ => none, some fun _ => none, some fun _ => none⟩ :
      Hooks Nat Nat) := by
    refine ⟨?_, ?_, ?_⟩ <;> · rintro h ⟨⟩ u; rfl
  have := (C4_perform_outcome_handling (⟨TaskStatus.pending, none, false⟩ : TaskObj Nat Nat)
    (.error 7) ⟨some fun _ => none, some fun _ => none, some fun _ => none⟩ rfl hnr).2 7 rfl
  exact ⟨⟨rfl, hnr⟩, this.1, this.2.1, this.2.2.1 rfl, this.2.2.2.2.2⟩

/-- C5 counterexample: the claim quantifies over every installed set of
hooks, but a canceled hook that raises escapes `execute_task` (the canceled
branch is outside the `try`).  Concretely, for a cancelled task whose
canceled hook raises `7`, `execute_task` raises `7`. -/
theorem C5_counterexample_hook_exception_escapes :
    (execute_task (⟨TaskStatus.pending, none, true⟩ : TaskObj Nat Nat) (.ok 0)
      ⟨none, none, some fun _ => some 7⟩).raised = some 7 := rfl

/-- C5 amended: `execute_task` never itself raises provided the installed
hooks do not raise; in particular an exception raised by the user's `execute`
is always captured and never escapes. -/
theorem C5_execute_task_no_raise {α ε : Type} (t : TaskObj α ε)
    (perform : Except ε α) (hooks : Hooks α ε) (hnr : HooksNoRaise hooks) :
    (execute_task t perform hooks).raised = none := by
  obtain ⟨hcmp, hfl, hcnl⟩ := hnr
  unfold execute_task failBranch
  cases hce : t.canceledEvent
  · simp only [Bool.false_eq_true, if_false]
    cases perform with
    | ok v =>
      cases h : hooks.onCompleted with
      | none => simp
      | some hk =>
        have := hcmp hk h
        cases h2 : hooks.onFailed with
        | none => simp [this]
        | some hk2 => simp [this, hfl hk2 h2]
    | error e =>
      cases h2 : hooks.onFailed with
      | none => simp
      | some hk2 => simp [hfl hk2 h2]
  · simp only [if_true]
    cases h : hooks.onCanceled with
    | none => simp
    | some hk => simp [hcnl hk h]

/-- Witness for C5's amended theorem: a cancelled task with all three hooks
installed and silent; `execute_task` raises nothing. -/
theorem C5_execute_task_no_raise_witness :
    HooksNoRaise (⟨some fun _ => none, some fun _ => none, some fun _ => none⟩ :
      Hooks Nat Nat) ∧
    (execute_task (⟨TaskStatus.pending, none, true⟩ : TaskObj Nat Nat) (.error 3)
      ⟨some fun _ => none, some fun _ => none, some fun _ => none⟩).raised = none := by
  have hnr : HooksNoRaise (⟨some fun _ => none, some fun _ => none, some fun _ => none⟩ :
      Hooks Nat Nat) := by
    refine ⟨?_, ?_, ?_⟩ <;> · rintro h ⟨⟩ u; rfl
  exact ⟨hnr, C5_execute_task_no_raise _ _ _ hnr⟩

/-! ## Scheduler model (`scheduler.py`)

Tasks are keyed by `task_id` (a `String`); the source's `Task.__eq__` and
`Task.__hash__` route to `task_id` alone, so dict and set membership is
membership of the id.  The two `defaultdict`s `__task_to_dependencies` and
`__task_to_dependents` are insertion-ordered association lists.  The task
objects themselves live in a `tasks` store; an id may appear as a
prerequisite without being registered (its object still exists).  Result
values are fixed at `Except Nat Nat` at this level. -/

/-- Dict lookup: the value stored under the first (and, for dict states,
only) occurrence of a key in an insertion-ordered association list. -/
def alookup {β : Type} (l : List (String × β)) (k : String) : Option β :=
  match l with
  | [] => none
  | (k1, v) :: rest => if k = k1 then some v else alookup rest k

instance : DecidableEq (Except Nat Nat) := fun x y =>
  match x, y with
  | .ok a, .ok b =>
    if h : a = b then isTrue (by rw [h]) else isFalse (by intro hh; cases hh; exact h rfl)
  | .error a, .error b =>
    if h : a = b then isTrue (by rw [h]) else isFalse (by intro hh; cases hh; exact h rfl)
  | .ok _, .error _ => isFalse (by intro hh; cases hh)
  | .error _, .ok _ => isFalse (by intro hh; cases hh)

/-- The fields of one `Task` object as the scheduler sees them. -/
structure TaskRec where
  status : TaskStatus
  canceledFlag : Bool
  result : Option (Except Nat Nat)
  hookCompletedSet : Bool
  hookFailedSet : Bool
  hookCanceledSet : Bool
deriving DecidableEq, Repr

/-- A freshly constructed task: PENDING, flag clear, no result, no hooks. -/
def TaskRec.initial : TaskRec := ⟨.pending, false, none, false, false, false⟩

instance : Inhabited TaskRec := ⟨TaskRec.initial⟩

/-- The scheduler together with the store of task objects it references. -/
structure SchedulerState where
  tasks : List (String × TaskRec)
  taskToDependencies : List (String × List String)
  taskToDependents : List (String × List String)
deriving DecidableEq, Repr

/-- `task.status` of the object with the given id. -/
def statusOf (s : SchedulerState) (id : String) : TaskStatus :=
  ((alookup s.tasks id).getD TaskRec.initial).status

/-- `task.__canceled_event.is_set()` of the object with the given id. -/
def canceledOf (s : SchedulerState) (id : String) : Bool :=
  ((alookup s.tasks id).getD TaskRec.initial).canceledFlag

/-- `self.__task_to_dependencies[id]` (empty when absent). -/
def depsOf (s : SchedulerState) (id : String) : List String :=
  (alookup s.taskToDependencies id).getD []

/-- `self.__task_to_dependents[id]` (the `defaultdict` default is the empty
set). -/
def dependentsOf (s : SchedulerState) (id : String) : List String :=
  (alookup s.taskToDependents id).getD []

/-- `task in self.__task_to_dependencies`. -/
def isRegistered (s : SchedulerState) (id : String) : Bool :=
  (alookup s.taskToDependencies id).isSome

/-- The registered ids in registration (dict insertion) order. -/
def regKeys (s : SchedulerState) : List String :=
  s.taskToDependencies.map Prod.fst

/-- Replace the fields of the task object with the given id. -/
def updateTask (s : SchedulerState) (id : String) (f : TaskRec → TaskRec) :
    SchedulerState :=
  { s with tasks := s.tasks.map fun p => if p.1 = id then (p.1, f p.2) else p }

/-- `Task.mark_as_scheduled`. -/
def mark_as_scheduled (s : SchedulerState) (id : String) : SchedulerState :=
  updateTask s id fun r => { r with status := .scheduled }

/-- `Task.cancel`: set the one-shot canceled event. -/
def cancelTask (s : SchedulerState) (id : String) : SchedulerState :=
  updateTask s id fun r => { r with canceledFlag := true }

/-- A task object handed to `Scheduler.schedule`: its id and the ids of its
prerequisite set (`Task.dependencies` is a `frozenset`, already
deduplicated). -/
structure PyTask where
  taskId : String
  dependencies : List String
deriving DecidableEq, Repr

/-- The three `register_on_task_*` calls made by `Scheduler.schedule`. -/
def installHooks (s : SchedulerState) (id : String) : SchedulerState :=
  updateTask s id fun r =>
    { r with hookCompletedSet := true, hookFailedSet := true, hookCanceledSet := true }

/-- `self.__task_to_dependents[dependency].add(task)`: the `defaultdict`
creates the bucket when absent; `set.add` is a no-op when already present. -/
def addDependent (s : SchedulerState) (d x : String) : SchedulerState :=
  if (alookup s.taskToDependents d).isSome then
    { s with taskToDependents := s.taskToDependents.map fun p =>
        if p.1 = d then (p.1, if x ∈ p.2 then p.2 else p.2 ++ [x]) else p }
  else
    { s with taskToDependents := s.taskToDependents ++ [(d, [x])] }

/-- `Scheduler.schedule`.  The raise aborts before any mutation, so the
error case returns the exception message together with the unchanged state;
the success case installs the three hooks, records the dependency set and
adds the task to each prerequisite's dependents bucket. -/
def schedule (s : SchedulerState) (t : PyTask) : Option String × SchedulerState :=
  if (alookup s.taskToDependencies t.taskId).isSome then
    (some ("Task " ++ t.taskId ++ " already exists in the scheduler."), s)
  else
    let s1 := installHooks s t.taskId
    let s2 := { s1 with
      taskToDependencies := s1.taskToDependencies ++ [(t.taskId, t.dependencies)] }
    (none, t.dependencies.foldl (fun acc d => addDependent acc d t.taskId) s2)

/-- `any(task.status == TaskStatus.PENDING for task in ...keys())`. -/
def hasPendingTasks (s : SchedulerState) : Bool :=
  s.taskToDependencies.any fun p => statusOf s p.1 == .pending

/-- One scan of the readiness loop: the registered tasks that are PENDING
and whose every prerequisite is in a terminal state, in registration
order. -/
def collectReady (s : SchedulerState) : List String :=
  (s.taskToDependencies.filter fun p =>
    statusOf s p.1 == .pending && p.2.all fun d => terminalStatus (statusOf s d)).map
    Prod.fst

/-- `task.mark_as_scheduled()` applied to each element of a batch in order. -/
def markScheduledAll (s : SchedulerState) (batch : List String) : SchedulerState :=
  batch.foldl mark_as_scheduled s

/-- What one iteration of the `ready_tasks` loop body does. -/
inductive ReadyStep
  | terminated
  | yields (batch : List String) (after : SchedulerState)
  | waits
deriving DecidableEq, Repr

/-- The body of the `while True` loop in `Scheduler.ready_tasks`: return if
nothing is PENDING; otherwise yield the ready batch (marking each task
SCHEDULED), or wait on the condition variable when the batch is empty. -/
def readyTasksStep (s : SchedulerState) : ReadyStep :=
  if hasPendingTasks s = false then .terminated
  else
    match collectReady s with
    | [] => .waits
    | t :: rest => .yields (t :: rest) (markScheduledAll s (t :: rest))

/-- The observable calls a cascade hook makes, in order. -/
inductive HookAction
  | cancelDependent (id : String)
  | broadcastAll
deriving DecidableEq, Repr

/-- `Scheduler.__on_task_completed`: only `notify_all` under the condition
lock; no state mutated. -/
def on_task_completed (s : SchedulerState) (_task : String) :
    SchedulerState × List HookAction :=
  (s, [.broadcastAll])

/-- `Scheduler.__on_task_failed`: `dependent.cancel()` for every dependent of
the task, then `notify_all`. -/
def on_task_failed (s : SchedulerState) (task : String) :
    SchedulerState × List HookAction :=
  let ds := dependentsOf s task
  (ds.foldl cancelTask s, ds.map HookAction.cancelDependent ++ [.broadcastAll])

/-- `Scheduler.__on_task_canceled`: same cascade as the failed hook. -/
def on_task_canceled (s : SchedulerState) (task : String) :
    SchedulerState × List HookAction :=
  let ds := dependentsOf s task
  (ds.foldl cancelTask s, ds.map HookAction.cancelDependent ++ [.broadcastAll])

/-- Well-formedness of a scheduler state: dict keys are unique, stored
dependency and dependent sets are duplicate-free, the two directions of the
graph agree (an entry of a dependents bucket is a registered task that lists
the bucket's key among its dependencies, and vice versa), and every
registered id has a task object in the store. -/
def GraphWF (s : SchedulerState) : Prop :=
  ((s.taskToDependencies.map Prod.fst).Nodup ∧
    (s.taskToDependents.map Prod.fst).Nodup) ∧
  ((∀ p ∈ s.taskToDependencies, p.2.Nodup) ∧
    (∀ p ∈ s.taskToDependents, p.2.Nodup)) ∧
  (∀ p ∈ s.taskToDependents, ∀ x ∈ p.2, isRegistered s x = true ∧ p.1 ∈ depsOf s x) ∧
  (∀ p ∈ s.taskToDependencies, ∀ d ∈ p.2, p.1 ∈ dependentsOf s d) ∧
  (∀ p ∈ s.taskToDependencies, (alookup s.tasks p.1).isSome = true)


/-! ## Association-list lemmas -/

theorem alookup_map_if {β : Type} (l : List (String × β)) (id : String) (f : β → β)
    (x : String) :
    alookup (l.map fun p => if p.1 = id then (p.1, f p.2) else p) x =
      if x = id then (alookup l id).map f else alookup l x := by
  induction l with
  | nil => simp [alookup]
  | cons p rest ih =>
    obtain ⟨k, v⟩ := p
    simp only [List.map_cons]
    by_cases hk : k = id
    · rw [if_pos hk]
      subst hk
      by_cases hx : x = k
      · subst hx
        simp [alookup]
      · simp [alookup, hx, ih]
    · rw [if_neg hk]
      by_cases hx : x = k
      · subst hx
        have hxid : ¬x = id := hk
        simp [alookup, hxid]
      · by_cases hxid : x = id
        · subst hxid
          simp [alookup, hx, ih]
        · simp [alookup, hx, hxid, ih]

theorem alookup_of_mem_nodupKeys {β : Type} (l : List (String × β))
    (hnd : (l.map Prod.fst).Nodup) (k : String) (v : β) (hm : (k, v) ∈ l) :
    alookup l k = some v := by
  induction l with
  | nil => cases hm
  | cons p rest ih =>
    obtain ⟨k1, v1⟩ := p
    simp only [List.map_cons, List.nodup_cons] at hnd
    rcases List.mem_cons.mp hm with h | h
    · cases h
      simp [alookup]
    · have hk : k ≠ k1 := by
        rintro rfl
        exact hnd.1 (List.mem_map.mpr ⟨(k, v), h, rfl⟩)
      simp [alookup, hk, ih hnd.2 h]

theorem mem_of_alookup_eq_some {β : Type} (l : List (String × β)) (k : String) (v : β)
    (h : alookup l k = some v) : (k, v) ∈ l := by
  induction l with
  | nil => simp [alookup] at h
  | cons p rest ih =>
    obtain ⟨k1, v1⟩ := p
    by_cases hk : k = k1
    · subst hk
      rw [show alookup ((k, v1) :: rest) k = some v1 by simp [alookup]] at h
      cases h
      exact List.mem_cons_self _ _
    · simp only [alookup, if_neg hk] at h
      exact List.mem_cons_of_mem _ (ih h)

theorem keys_mem_of_alookup_isSome {β : Type} (l : List (String × β)) (k : String)
    (h : (alookup l k).isSome = true) : k ∈ l.map Prod.fst := by
  cases hv : alookup l k with
  | none => rw [hv] at h; cases h
  | some v => exact List.mem_map.mpr ⟨(k, v), mem_of_alookup_eq_some l k v hv, rfl⟩

theorem alookup_isSome_of_keys_mem {β : Type} (l : List (String × β)) (k : String)
    (h : k ∈ l.map Prod.fst) : (alookup l k).isSome = true := by
  induction l with
  | nil => cases h
  | cons p rest ih =>
    obtain ⟨k1, v1⟩ := p
    by_cases hk : k = k1
    · subst hk
      simp [alookup]
    · simp only [List.map_cons, List.mem_cons] at h
      rcases h with h | h
      · exact absurd h hk
      · simp [alookup, hk, ih h]

theorem alookup_append_left {β : Type} (l1 l2 : List (String × β)) (k : String)
    (h : (alookup l1 k).isSome = true) : alookup (l1 ++ l2) k = alookup l1 k := by
  induction l1 with
  | nil => simp [alookup] at h
  | cons p rest ih =>
    obtain ⟨k1, v1⟩ := p
    by_cases hk : k = k1
    · subst hk
      simp [alookup]
    · simp only [alookup, if_neg hk] at h ⊢
      exact ih h

theorem alookup_append_right {β : Type} (l1 l2 : List (String × β)) (k : String)
    (h : alookup l1 k = none) : alookup (l1 ++ l2) k = alookup l2 k := by
  induction l1 with
  | nil => simp
  | cons p rest ih =>
    obtain ⟨k1, v1⟩ := p
    by_cases hk : k = k1
    · subst hk
      simp [alookup] at h
    · simp only [alookup, if_neg hk] at h ⊢
      exact ih h

/-! ## Field-update lemmas -/

@[simp] theorem updateTask_deps (s : SchedulerState) (id : String) (f : TaskRec → TaskRec) :
    (updateTask s id f).taskToDependencies = s.taskToDependencies := rfl

@[simp] theorem updateTask_dependents (s : SchedulerState) (id : String)
    (f : TaskRec → TaskRec) :
    (updateTask s id f).taskToDependents = s.taskToDependents := rfl

theorem updateTask_alookup (s : SchedulerState) (id : String) (f : TaskRec → TaskRec)
    (x : String) :
    alookup (updateTask s id f).tasks x =
      if x = id then (alookup s.tasks id).map f else alookup s.tasks x :=
  alookup_map_if s.tasks id f x

theorem updateTask_alookup_isSome (s : SchedulerState) (id : String)
    (f : TaskRec → TaskRec) (x : String) :
    (alookup (updateTask s id f).tasks x).isSome = (alookup s.tasks x).isSome := by
  rw [updateTask_alookup]
  by_cases h : x = id <;> simp [h]

theorem statusOf_mark_self (s : SchedulerState) (id : String)
    (h : (alookup s.tasks id).isSome = true) :
    statusOf (mark_as_scheduled s id) id = .scheduled := by
  obtain ⟨r, hr⟩ := Option.isSome_iff_exists.mp h
  simp [statusOf, mark_as_scheduled, updateTask_alookup, hr]

theorem statusOf_mark_other (s : SchedulerState) (id x : String) (h : x ≠ id) :
    statusOf (mark_as_scheduled s id) x = statusOf s x := by
  simp [statusOf, mark_as_scheduled, updateTask_alookup, h]

theorem canceledOf_mark (s : SchedulerState) (id x : String) :
    canceledOf (mark_as_scheduled s id) x = canceledOf s x := by
  by_cases h : x = id
  · subst h
    cases hr : alookup s.tasks x <;>
      simp [canceledOf, mark_as_scheduled, updateTask_alookup, hr]
  · simp [canceledOf, mark_as_scheduled, updateTask_alookup, h]

theorem statusOf_cancelTask (s : SchedulerState) (id x : String) :
    statusOf (cancelTask s id) x = statusOf s x := by
  by_cases h : x = id
  · subst h
    cases hr : alookup s.tasks x <;>
      simp [statusOf, cancelTask, updateTask_alookup, hr]
  · simp [statusOf, cancelTask, updateTask_alookup, h]

theorem canceledOf_cancelTask_self (s : SchedulerState) (id : String)
    (h : (alookup s.tasks id).isSome = true) :
    canceledOf (cancelTask s id) id = true := by
  obtain ⟨r, hr⟩ := Option.isSome_iff_exists.mp h
  simp [canceledOf, cancelTask, updateTask_alookup, hr]

theorem canceledOf_cancelTask_other (s : SchedulerState) (id x : String) (h : x ≠ id) :
    canceledOf (cancelTask s id) x = canceledOf s x := by
  simp [canceledOf, cancelTask, updateTask_alookup, h]

/-! ## `markScheduledAll` lemmas -/

@[simp] theorem markScheduledAll_deps (s : SchedulerState) (batch : List String) :
    (markScheduledAll s batch).taskToDependencies = s.taskToDependencies := by
  induction batch generalizing s with
  | nil => rfl
  | cons b rest ih => simp [markScheduledAll, List.foldl_cons] at ih ⊢; exact ih _

@[simp] theorem markScheduledAll_dependents (s : SchedulerState) (batch : List String) :
    (markScheduledAll s batch).taskToDependents = s.taskToDependents := by
  induction batch generalizing s with
  | nil => rfl
  | cons b rest ih => simp [markScheduledAll, List.foldl_cons] at ih ⊢; exact ih _

theorem markScheduledAll_alookup_isSome (s : SchedulerState) (batch : List String)
    (x : String) :
    (alookup (markScheduledAll s batch).tasks x).isSome = (alookup s.tasks x).isSome := by
  induction batch generalizing s with
  | nil => rfl
  | cons b rest ih =>
    simp only [markScheduledAll, List.foldl_cons] at ih ⊢
    rw [ih]
    exact updateTask_alookup_isSome s b _ x

theorem statusOf_markScheduledAll_of_not_mem (s : SchedulerState) (batch : List String)
    (x : String) (h : x ∉ batch) :
    statusOf (markScheduledAll s batch) x = statusOf s x := by
  induction batch generalizing s with
  | nil => rfl
  | cons b rest ih =>
    simp only [markScheduledAll, List.foldl_cons] at ih ⊢
    rw [ih _ fun hm => h (List.mem_cons_of_mem _ hm)]
    exact statusOf_mark_other s b x fun he => h (he ▸ List.mem_cons_self _ _)

theorem statusOf_markScheduledAll_of_mem (s : SchedulerState) (batch : List String)
    (x : String) (hs : (alookup s.tasks x).isSome = true) (h : x ∈ batch) :
    statusOf (markScheduledAll s batch) x = .scheduled := by
  induction batch generalizing s with
  | nil => cases h
  | cons b rest ih =>
    simp only [markScheduledAll, List.foldl_cons] at ih ⊢
    by_cases hm : x ∈ rest
    · exact ih _ (by rw [mark_as_scheduled, updateTask_alookup_isSome]; exact hs) hm
    · have hb : x = b := by
        rcases List.mem_cons.mp h with h1 | h1
        · exact h1
        · exact absurd h1 hm
      subst hb
      rw [show List.foldl mark_as_scheduled (mark_as_scheduled s x) rest
            = markScheduledAll (mark_as_scheduled s x) rest from rfl]
      rw [statusOf_markScheduledAll_of_not_mem _ _ _ hm]
      exact statusOf_mark_self s x hs

theorem get_mem_take_succ {γ : Type} (l : List γ) (i : Nat) (h : i < l.length) :
    l.get ⟨i, h⟩ ∈ l.take (i + 1) := by
  induction l generalizing i with
  | nil => cases h
  | cons a rest ih =>
    cases i with
    | zero => simp
    | succ n =>
      simp only [List.take_succ_cons, List.get_cons_succ]
      exact List.mem_cons_of_mem _ (ih n (Nat.lt_of_succ_lt_succ h))

/-- C1: one iteration of the readiness loop terminates the sequence exactly
when no registered task is PENDING; every yielded task was PENDING with all
its prerequisites terminal at scan time; each task of the yielded batch has
already been marked SCHEDULED in the state current at the moment it is
yielded (the batch is marked one task at a time, in order); and the state
after the batch is the scan state with the whole batch marked. -/
theorem C1_ready_iterator_step (s : SchedulerState) (hWF : GraphWF s) :
    (readyTasksStep s = .terminated ↔ hasPendingTasks s = false) ∧
    (∀ batch after, readyTasksStep s = .yields batch after →
      (∀ t ∈ batch, statusOf s t = .pending ∧
        ∀ d ∈ depsOf s t, terminalStatus (statusOf s d) = true) ∧
      (∀ i, (h : i < batch.length) →
        statusOf (markScheduledAll s (batch.take (i + 1))) (batch.get ⟨i, h⟩)
          = .scheduled) ∧
      after = markScheduledAll s batch) := by
  obtain ⟨⟨hndK, -⟩, -, -, -, hstore⟩ := hWF
  have hmem : ∀ t ∈ collectReady s, statusOf s t = .pending ∧
      ∀ d ∈ depsOf s t, terminalStatus (statusOf s d) = true := by
    intro t ht
    obtain ⟨p, hp, rfl⟩ := List.mem_map.mp ht
    have hf := List.mem_filter.mp hp
    obtain ⟨hpend, hall⟩ := Bool.and_eq_true_iff.mp hf.2
    refine ⟨by simpa using hpend, ?_⟩
    have hdeps : depsOf s p.1 = p.2 := by
      unfold depsOf
      rw [alookup_of_mem_nodupKeys _ hndK _ _ hf.1]
      rfl
    rw [hdeps]
    intro d hd
    exact List.all_eq_true.mp hall d hd
  have hsub : ∀ t ∈ collectReady s, (alookup s.tasks t).isSome = true := by
    intro t ht
    obtain ⟨p, hp, rfl⟩ := List.mem_map.mp ht
    exact hstore p (List.mem_filter.mp hp).1
  constructor
  · unfold readyTasksStep
    by_cases hp : hasPendingTasks s = false
    · simp [hp]
    · cases hcr : collectReady s <;> simp [hp, hcr]
  · intro batch after hy
    unfold readyTasksStep at hy
    by_cases hp : hasPendingTasks s = false
    · rw [if_pos hp] at hy
      cases hy
    · rw [if_neg hp] at hy
      cases hcr : collectReady s with
      | nil => rw [hcr] at hy; cases hy
      | cons t0 rest =>
        rw [hcr] at hy
        cases hy
        rw [← hcr]
        refine ⟨hmem, ?_, rfl⟩
        intro i h
        have hg : (collectReady s).get ⟨i, h⟩ ∈ (collectReady s).take (i + 1) :=
          get_mem_take_succ _ i h
        have hg2 : (collectReady s).get ⟨i, h⟩ ∈ collectReady s := List.get_mem _ _ _
        exact statusOf_markScheduledAll_of_mem s _ _ (hsub _ hg2) hg

instance (s : SchedulerState) : Decidable (GraphWF s) := by
  unfold GraphWF
  exact inferInstance

/-- A registered two-task graph used as a concrete instance: `"a"` has no
prerequisites and is PENDING, `"b"` depends on `"a"`. -/
def readyDemoState : SchedulerState :=
  { tasks := [("a", TaskRec.initial), ("b", TaskRec.initial)],
    taskToDependencies := [("a", []), ("b", ["a"])],
    taskToDependents := [("a", ["b"])] }

/-- Witness for C1: on the concrete graph, the step yields exactly `["a"]`
(`"b"`'s prerequisite is not terminal), `"a"` was PENDING before and is
SCHEDULED at the moment it is yielded. -/
theorem C1_ready_iterator_step_witness :
    GraphWF readyDemoState ∧
    readyTasksStep readyDemoState
      = .yields ["a"] (markScheduledAll readyDemoState ["a"]) ∧
    statusOf readyDemoState "a" = .pending ∧
    statusOf (markScheduledAll readyDemoState (List.take (0 + 1) ["a"]))
      (List.get ["a"] ⟨0, by decide⟩) = .scheduled := by
  have hWF : GraphWF readyDemoState := by decide
  have h := C1_ready_iterator_step readyDemoState hWF
  have hy : readyTasksStep readyDemoState
      = .yields ["a"] (markScheduledAll readyDemoState ["a"]) := by decide
  exact ⟨hWF, hy, ((h.2 ["a"] _ hy).1 "a" (by decide)).1, (h.2 ["a"] _ hy).2.1 0 (by decide)⟩

/-! ## Cascade-hook lemmas -/

theorem foldl_cancel_alookup_isSome (ds : List String) (s : SchedulerState) (v : String) :
    (alookup (ds.foldl cancelTask s).tasks v).isSome = (alookup s.tasks v).isSome := by
  induction ds generalizing s with
  | nil => rfl
  | cons d rest ih =>
    rw [List.foldl_cons, ih]
    exact updateTask_alookup_isSome s d _ v

theorem canceledOf_foldl_cancel_of_not_mem (ds : List String) (s : SchedulerState)
    (v : String) (h : v ∉ ds) :
    canceledOf (ds.foldl cancelTask s) v = canceledOf s v := by
  induction ds generalizing s with
  | nil => rfl
  | cons d rest ih =>
    rw [List.foldl_cons, ih _ fun hm => h (List.mem_cons_of_mem _ hm)]
    exact canceledOf_cancelTask_other s d v fun he => h (he ▸ List.mem_cons_self _ _)

theorem canceledOf_foldl_cancel_of_mem (ds : List String) (s : SchedulerState)
    (v : String) (hs : (alookup s.tasks v).isSome = true) (hv : v ∈ ds) :
    canceledOf (ds.foldl cancelTask s) v = true := by
  induction ds generalizing s with
  | nil => cases hv
  | cons d rest ih =>
    rw [List.foldl_cons]
    by_cases hm : v ∈ rest
    · exact ih _ (by rw [cancelTask, updateTask_alookup_isSome]; exact hs) hm
    · have hd : v = d := by
        rcases List.mem_cons.mp hv with h1 | h1
        · exact h1
        · exact absurd h1 hm
      subst hd
      rw [canceledOf_foldl_cancel_of_not_mem _ _ _ hm]
      exact canceledOf_cancelTask_self s v hs

theorem statusOf_foldl_cancel (ds : List String) (s : SchedulerState) (x : String) :
    statusOf (ds.foldl cancelTask s) x = statusOf s x := by
  induction ds generalizing s with
  | nil => rfl
  | cons d rest ih => rw [List.foldl_cons, ih, statusOf_cancelTask]

theorem cancel_trace_order (ds : List String) (i j : Nat) (v : String)
    (hi : (ds.map HookAction.cancelDependent ++ [HookAction.broadcastAll]).get? i
      = some (.cancelDependent v))
    (hj : (ds.map HookAction.cancelDependent ++ [HookAction.broadcastAll]).get? j
      = some .broadcastAll) : i < j := by
  have hlen : (ds.map HookAction.cancelDependent).length = ds.length := List.length_map _ _
  have hi_lt : i < ds.length := by
    by_contra hge
    push_neg at hge
    rw [List.get?_append_right (by omega)] at hi
    cases hc : ([HookAction.broadcastAll].get? (i - (ds.map HookAction.cancelDependent).length)) with
    | none => rw [hc] at hi; cases hi
    | some a =>
      have := List.get?_mem hc
      simp only [List.mem_singleton] at this
      rw [hc] at hi
      rw [this] at hi
      cases hi
  have hj_ge : ds.length ≤ j := by
    by_contra hlt
    push_neg at hlt
    rw [List.get?_append (by omega)] at hj
    cases hc : ((ds.map HookAction.cancelDependent).get? j) with
    | none => rw [hc] at hj; cases hj
    | some a =>
      have := List.get?_mem hc
      obtain ⟨w, -, hw⟩ := List.mem_map.mp this
      rw [hc] at hj
      rw [← hw] at hj
      cases hj
  omega

/-- C2: the failed and canceled hooks call `cancel` on every dependent of
the task — every dependent's cancel flag is set in the resulting state, and
in the hook's call trace every `cancelDependent` precedes the `broadcast` —
while the completed hook leaves the state untouched and its trace contains
no cancellation at all. -/
theorem C2_cascade_hooks (s : SchedulerState) (u : String) (hWF : GraphWF s) :
    ((∀ v ∈ dependentsOf s u, canceledOf (on_task_failed s u).1 v = true) ∧
      (∀ v ∈ dependentsOf s u,
        HookAction.cancelDependent v ∈ (on_task_failed s u).2) ∧
      (∀ i j v, (on_task_failed s u).2.get? i = some (.cancelDependent v) →
        (on_task_failed s u).2.get? j = some .broadcastAll → i < j)) ∧
    ((∀ v ∈ dependentsOf s u, canceledOf (on_task_canceled s u).1 v = true) ∧
      (∀ v ∈ dependentsOf s u,
        HookAction.cancelDependent v ∈ (on_task_canceled s u).2) ∧
      (∀ i j v, (on_task_canceled s u).2.get? i = some (.cancelDependent v) →
        (on_task_canceled s u).2.get? j = some .broadcastAll → i < j)) ∧
    ((on_task_completed s u).1 = s ∧
      ∀ v, HookAction.cancelDependent v ∉ (on_task_completed s u).2) := by
  obtain ⟨-, -, hcons1, -, hstore⟩ := hWF
  have hdep_store : ∀ v ∈ dependentsOf s u, (alookup s.tasks v).isSome = true := by
    intro v hv
    unfold dependentsOf at hv
    cases hb : alookup s.taskToDependents u with
    | none => rw [hb] at hv; cases hv
    | some bucket =>
      rw [hb] at hv
      have hp := mem_of_alookup_eq_some _ _ _ hb
      have hreg := (hcons1 (u, bucket) hp v hv).1
      unfold isRegistered at hreg
      obtain ⟨ds, hds⟩ := Option.isSome_iff_exists.mp hreg
      exact hstore _ (mem_of_alookup_eq_some _ _ _ hds)
  have hcancel : ∀ v ∈ dependentsOf s u,
      canceledOf ((dependentsOf s u).foldl cancelTask s) v = true := fun v hv =>
    canceledOf_foldl_cancel_of_mem _ _ _ (hdep_store v hv) hv
  refine ⟨⟨hcancel, ?_, ?_⟩, ⟨hcancel, ?_, ?_⟩, rfl, ?_⟩
  · intro v hv
    exact List.mem_append_left _ (List.mem_map.mpr ⟨v, hv, rfl⟩)
  · intro i j v hi hj
    exact cancel_trace_order _ i j v hi hj
  · intro v hv
    exact List.mem_append_left _ (List.mem_map.mpr ⟨v, hv, rfl⟩)
  · intro i j v hi hj
    exact cancel_trace_order _ i j v hi hj
  · intro v hv
    simp [on_task_completed] at hv

/-- Witness for C2 on the concrete graph: failing `"a"` sets `"b"`'s cancel
flag; the completed hook changes nothing. -/
theorem C2_cascade_hooks_witness :
    GraphWF readyDemoState ∧
    canceledOf (on_task_failed readyDemoState "a").1 "b" = true ∧
    (on_task_completed readyDemoState "a").1 = readyDemoState := by
  have hWF : GraphWF readyDemoState := by decide
  have h := C2_cascade_hooks readyDemoState "a" hWF
  exact ⟨hWF, h.1.1 "b" (by decide), h.2.2.1⟩

/-! ## `schedule` lemmas -/

@[simp] theorem addDependent_tasks (s : SchedulerState) (d x : String) :
    (addDependent s d x).tasks = s.tasks := by
  unfold addDependent
  split <;> rfl

@[simp] theorem addDependent_deps (s : SchedulerState) (d x : String) :
    (addDependent s d x).taskToDependencies = s.taskToDependencies := by
  unfold addDependent
  split <;> rfl

theorem alookup_bucket_add (l : List (String × List String)) (d x e : String) :
    alookup
        (l.map fun p => if p.1 = d then (p.1, if x ∈ p.2 then p.2 else p.2 ++ [x]) else p) e
      = if e = d then (alookup l d).map fun b => if x ∈ b then b else b ++ [x]
        else alookup l e :=
  alookup_map_if l d (fun b => if x ∈ b then b else b ++ [x]) e

theorem addDependent_mem_self (s : SchedulerState) (d x : String) :
    x ∈ dependentsOf (addDependent s d x) d := by
  unfold addDependent
  by_cases hb : (alookup s.taskToDependents d).isSome = true
  · rw [if_pos hb]
    obtain ⟨bucket, hbk⟩ := Option.isSome_iff_exists.mp hb
    show x ∈ (alookup (s.taskToDependents.map fun p =>
      if p.1 = d then (p.1, if x ∈ p.2 then p.2 else p.2 ++ [x]) else p) d).getD []
    rw [alookup_bucket_add, if_pos rfl, hbk]
    by_cases hx : x ∈ bucket
    · simp [hx]
    · simp [hx]
  · rw [if_neg hb]
    have hn : alookup s.taskToDependents d = none := by
      cases hc : alookup s.taskToDependents d
      · rfl
      · rw [hc] at hb; simp at hb
    show x ∈ (alookup (s.taskToDependents ++ [(d, [x])]) d).getD []
    rw [alookup_append_right _ _ _ hn]
    simp [alookup]

theorem addDependent_mono (s : SchedulerState) (d x y e : String)
    (h : y ∈ dependentsOf s e) : y ∈ dependentsOf (addDependent s d x) e := by
  unfold dependentsOf at h
  unfold addDependent
  by_cases hb : (alookup s.taskToDependents d).isSome = true
  · rw [if_pos hb]
    show y ∈ (alookup (s.taskToDependents.map fun p =>
      if p.1 = d then (p.1, if x ∈ p.2 then p.2 else p.2 ++ [x]) else p) e).getD []
    rw [alookup_bucket_add]
    by_cases he : e = d
    · subst he
      cases hc : alookup s.taskToDependents e with
      | none => rw [hc] at h; cases h
      | some bucket =>
        rw [hc] at h
        rw [if_pos rfl]
        by_cases hx : x ∈ bucket
        · simpa [hx] using h
        · have hmap : Option.map (fun b => if x ∈ b then b else b ++ [x]) (some bucket)
              = some (bucket ++ [x]) := by simp [hx]
          rw [hmap]
          exact List.mem_append_left _ (by simpa using h)
    · rw [if_neg he]
      exact h
  · rw [if_neg hb]
    cases hc : alookup s.taskToDependents e with
    | none => rw [hc] at h; cases h
    | some bucket =>
      show y ∈ (alookup (s.taskToDependents ++ [(d, [x])]) e).getD []
      rw [alookup_append_left _ _ _ (by rw [hc]; rfl), hc]
      rw [hc] at h
      exact h

theorem foldl_addDependent_tasks (ds : List String) (s : SchedulerState) (x : String) :
    ((ds.foldl (fun acc d => addDependent acc d x) s)).tasks = s.tasks := by
  induction ds generalizing s with
  | nil => rfl
  | cons d rest ih => rw [List.foldl_cons, ih, addDependent_tasks]

theorem foldl_addDependent_deps (ds : List String) (s : SchedulerState) (x : String) :
    ((ds.foldl (fun acc d => addDependent acc d x) s)).taskToDependencies
      = s.taskToDependencies := by
  induction ds generalizing s with
  | nil => rfl
  | cons d rest ih => rw [List.foldl_cons, ih, addDependent_deps]

theorem foldl_addDependent_mono (ds : List String) (s : SchedulerState) (x y e : String)
    (h : y ∈ dependentsOf s e) :
    y ∈ dependentsOf (ds.foldl (fun acc d => addDependent acc d x) s) e := by
  induction ds generalizing s with
  | nil => exact h
  | cons d rest ih => exact ih _ (addDependent_mono s d x y e h)

theorem foldl_addDependent_mem (ds : List String) (s : SchedulerState) (x : String) :
    ∀ d ∈ ds, x ∈ dependentsOf (ds.foldl (fun acc d2 => addDependent acc d2 x) s) d := by
  induction ds generalizing s with
  | nil => intro d hd; cases hd
  | cons d0 rest ih =>
    intro d hd
    rw [List.foldl_cons]
    rcases List.mem_cons.mp hd with h1 | h1
    · subst h1
      exact foldl_addDependent_mono rest _ x x d (addDependent_mem_self s d x)
    · exact ih _ d h1

/-- C6: `schedule` fails exactly when a task with the same id is already a
key of the dependency dict (task equality is by id); the failure aborts
before any mutation, so the whole state (graph and task objects) is
returned unchanged; a successful registration installs the three hooks on
the task, stores its prerequisite set under its id, and adds its id to each
prerequisite's dependents bucket. -/
theorem C6_schedule_register (s : SchedulerState) (t : PyTask)
    (hstore : (alookup s.tasks t.taskId).isSome = true) :
    ((schedule s t).1.isSome = true ↔ isRegistered s t.taskId = true) ∧
    ((schedule s t).1.isSome = true → (schedule s t).2 = s) ∧
    ((schedule s t).1 = none →
      ((alookup (schedule s t).2.tasks t.taskId).getD TaskRec.initial).hookCompletedSet
        = true ∧
      ((alookup (schedule s t).2.tasks t.taskId).getD TaskRec.initial).hookFailedSet
        = true ∧
      ((alookup (schedule s t).2.tasks t.taskId).getD TaskRec.initial).hookCanceledSet
        = true ∧
      depsOf (schedule s t).2 t.taskId = t.dependencies ∧
      ∀ d ∈ t.dependencies, t.taskId ∈ dependentsOf (schedule s t).2 d) := by
  by_cases hreg : (alookup s.taskToDependencies t.taskId).isSome = true
  · have heq : schedule s t =
        (some ("Task " ++ t.taskId ++ " already exists in the scheduler."), s) := by
      unfold schedule
      rw [if_pos hreg]
    rw [heq]
    refine ⟨?_, ?_, ?_⟩
    · simp [isRegistered, hreg]
    · intro _
      rfl
    · intro hn
      simp at hn
  · have hnone : alookup s.taskToDependencies t.taskId = none := by
      cases hc : alookup s.taskToDependencies t.taskId
      · rfl
      · rw [hc] at hreg; simp at hreg
    have heq : schedule s t =
        (none, t.dependencies.foldl (fun acc d => addDependent acc d t.taskId)
          { installHooks s t.taskId with
            taskToDependencies :=
              (installHooks s t.taskId).taskToDependencies
                ++ [(t.taskId, t.dependencies)] }) := by
      unfold schedule
      rw [if_neg hreg]
    rw [heq]
    refine ⟨?_, ?_, ?_⟩
    · simp [isRegistered, hreg]
    · intro hs
      simp at hs
    refine fun _ => ?_
    obtain ⟨r, hr⟩ := Option.isSome_iff_exists.mp hstore
    have htasks : (t.dependencies.foldl (fun acc d => addDependent acc d t.taskId)
        { installHooks s t.taskId with
          taskToDependencies :=
            (installHooks s t.taskId).taskToDependencies ++ [(t.taskId, t.dependencies)] }).tasks
        = (installHooks s t.taskId).tasks :=
      foldl_addDependent_tasks _ _ _
    refine ⟨?_, ?_, ?_, ?_, ?_⟩
    · rw [htasks]
      simp [installHooks, updateTask_alookup, hr]
    · rw [htasks]
      simp [installHooks, updateTask_alookup, hr]
    · rw [htasks]
      simp [installHooks, updateTask_alookup, hr]
    · unfold depsOf
      rw [foldl_addDependent_deps]
      simp only [updateTask_deps, installHooks]
      rw [alookup_append_right _ _ _ (by simpa [installHooks] using hnone)]
      simp [alookup]
    · intro d hd
      exact foldl_addDependent_mem _ _ _ d hd

/-- A three-object store with `"a"` and `"b"` registered and `"c"` not yet
registered, for exercising `schedule`. -/
def scheduleDemoState : SchedulerState :=
  { tasks := [("a", TaskRec.initial), ("b", TaskRec.initial), ("c", TaskRec.initial)],
    taskToDependencies := [("a", []), ("b", ["a"])],
    taskToDependents := [("a", ["b"])] }

/-- Witness for C6: registering the fresh task `"c"` (prerequisite `"a"`)
succeeds with the claimed effects; re-registering `"a"` fails with the state
unchanged. -/
theorem C6_schedule_register_witness :
    ((alookup scheduleDemoState.tasks "c").isSome = true ∧
      (schedule scheduleDemoState ⟨"c", ["a"]⟩).1 = none ∧
      depsOf (schedule scheduleDemoState ⟨"c", ["a"]⟩).2 "c" = ["a"] ∧
      "c" ∈ dependentsOf (schedule scheduleDemoState ⟨"c", ["a"]⟩).2 "a") ∧
    ((schedule scheduleDemoState ⟨"a", []⟩).1.isSome = true ∧
      (schedule scheduleDemoState ⟨"a", []⟩).2 = scheduleDemoState) := by
  have h1 := C6_schedule_register scheduleDemoState ⟨"c", ["a"]⟩ (by decide)
  have h2 := C6_schedule_register scheduleDemoState ⟨"a", []⟩ (by decide)
  have hnone : (schedule scheduleDemoState ⟨"c", ["a"]⟩).1 = none := by decide
  have hsome : (schedule scheduleDemoState ⟨"a", []⟩).1.isSome = true := by decide
  exact ⟨⟨by decide, hnone, (h1.2.2 hnone).2.2.2.1,
    (h1.2.2 hnone).2.2.2.2 "a" (by decide)⟩, ⟨hsome, h2.2.1 hsome⟩⟩

/-! ## Cycle detection: `Scheduler.__has_cycles`

Kahn's algorithm.  Degrees are Python ints (`Int`; a count may be driven
below zero, and only an exact zero enqueues).  The `while ready_queue:` loop
is given the fuel `len(out_degree)`: a task is enqueued only when its
strictly decreasing count reaches exactly zero, which happens at most once
per task, so the source loop pops at most one task per registered task. -/

/-- The inner for-loop of `__has_cycles`: decrement the count of every
dependent of the popped task in order, collecting (in order) those whose
count reaches exactly zero. -/
def decAll (dependentsList : List String) (deg : String → Int) :
    (String → Int) × List String :=
  match dependentsList with
  | [] => (deg, [])
  | v :: rest =>
    let dv := deg v - 1
    let deg1 : String → Int := fun z => if z = v then dv else deg z
    let out := decAll rest deg1
    (out.1, (if dv = 0 then [v] else []) ++ out.2)

/-- The `while ready_queue:` loop: pop from the front, count the task as
processed, decrement its dependents' counts and enqueue the newly-zero ones
at the back. -/
def kahnLoop (s : SchedulerState) : Nat → List String → (String → Int) → List String →
    List String
  | 0, _, _, proc => proc
  | _ + 1, [], _, proc => proc
  | fuel + 1, t :: q, deg, proc =>
    let out := decAll (dependentsOf s t) deg
    kahnLoop s fuel (q ++ out.2) out.1 (proc ++ [t])

/-- `out_degree`: each registered task's count starts at the size of its
stored dependency set. -/
def kahnDeg0 (s : SchedulerState) : String → Int :=
  fun z => (((alookup s.taskToDependencies z).getD []).length : Int)

/-- The tasks processed by `__has_cycles`'s traversal, in processing
order.  The initial queue is the registered tasks with zero dependencies, in
registration order. -/
def kahnProcessed (s : SchedulerState) : List String :=
  kahnLoop s (regKeys s).length
    ((regKeys s).filter fun t => kahnDeg0 s t == 0) (kahnDeg0 s) []

/-- `Scheduler.__has_cycles`: report a cycle exactly when the number of
processed tasks differs from the number of registered tasks. -/
def has_cycles (s : SchedulerState) : Bool :=
  (kahnProcessed s).length != (regKeys s).length

/-- First use of the `ready_tasks` property: raise a `SchedulingException`
naming circular dependencies when `__has_cycles` reports one. -/
def readyTasksFirstUse (s : SchedulerState) : Option String :=
  if has_cycles s then some "Dependency graph contains circular dependencies" else none

/-! ### `decAll` lemmas -/

theorem decAll_deg (ds : List String) (deg : String → Int) (hnd : ds.Nodup) (x : String) :
    (decAll ds deg).1 x = if x ∈ ds then deg x - 1 else deg x := by
  induction ds generalizing deg with
  | nil => simp [decAll]
  | cons v rest ih =>
    obtain ⟨hv, hrest⟩ := List.nodup_cons.mp hnd
    show (decAll rest fun z => if z = v then deg v - 1 else deg z).1 x = _
    rw [ih _ hrest]
    by_cases hxv : x = v
    · subst hxv
      simp [hv]
    · simp [hxv]

theorem decAll_newly_mem (ds : List String) (deg : String → Int) (hnd : ds.Nodup)
    (x : String) :
    x ∈ (decAll ds deg).2 ↔ x ∈ ds ∧ deg x = 1 := by
  induction ds generalizing deg with
  | nil => simp [decAll]
  | cons v rest ih =>
    obtain ⟨hv, hrest⟩ := List.nodup_cons.mp hnd
    show x ∈ (if deg v - 1 = 0 then [v] else [])
        ++ (decAll rest fun z => if z = v then deg v - 1 else deg z).2 ↔ _
    rw [List.mem_append, ih _ hrest]
    by_cases hxv : x = v
    · subst hxv
      constructor
      · rintro (h1 | h1)
        · by_cases hz : deg x - 1 = 0
          · exact ⟨List.mem_cons_self _ _, by omega⟩
          · rw [if_neg hz] at h1
            cases h1
        · exact absurd h1.1 hv
      · rintro ⟨-, h2⟩
        left
        rw [if_pos (by omega)]
        exact List.mem_singleton_self x
    · constructor
      · rintro (h1 | h1)
        · by_cases hz : deg v - 1 = 0
          · rw [if_pos hz] at h1
            exact absurd (List.mem_singleton.mp h1) hxv
          · rw [if_neg hz] at h1
            cases h1
        · rw [if_neg hxv] at h1
          exact ⟨List.mem_cons_of_mem _ h1.1, h1.2⟩
      · rintro ⟨h1, h2⟩
        right
        rcases List.mem_cons.mp h1 with h3 | h3
        · exact absurd h3 hxv
        · exact ⟨h3, by rw [if_neg hxv]; exact h2⟩

theorem decAll_newly_subset (ds : List String) (deg : String → Int) :
    ∀ x ∈ (decAll ds deg).2, x ∈ ds := by
  induction ds generalizing deg with
  | nil => intro x hx; cases hx
  | cons v rest ih =>
    intro x hx
    rcases List.mem_append.mp hx with h1 | h1
    · by_cases hz : deg v - 1 = 0
      · rw [if_pos hz] at h1
        rw [List.mem_singleton.mp h1]
        exact List.mem_cons_self _ _
      · rw [if_neg hz] at h1
        cases h1
    · exact List.mem_cons_of_mem _ (ih _ x h1)

theorem decAll_newly_nodup (ds : List String) (deg : String → Int) (hnd : ds.Nodup) :
    (decAll ds deg).2.Nodup := by
  induction ds generalizing deg with
  | nil => simp [decAll]
  | cons v rest ih =>
    obtain ⟨hv, hrest⟩ := List.nodup_cons.mp hnd
    show ((if deg v - 1 = 0 then [v] else [])
        ++ (decAll rest fun z => if z = v then deg v - 1 else deg z).2).Nodup
    rw [List.nodup_append]
    refine ⟨?_, ih _ hrest, ?_⟩
    · by_cases hz : deg v - 1 = 0 <;> simp [hz]
    · intro a ha hb
      by_cases hz : deg v - 1 = 0
      · rw [if_pos hz] at ha
        rw [List.mem_singleton.mp ha] at hb
        exact hv (decAll_newly_subset _ _ _ hb)
      · rw [if_neg hz] at ha
        cases ha

/-! ### Graph well-formedness consequences -/

theorem depsOf_nodup (s : SchedulerState) (hWF : GraphWF s) (x : String) :
    (depsOf s x).Nodup := by
  obtain ⟨-, ⟨hdnd, -⟩, -, -, -⟩ := hWF
  unfold depsOf
  cases hc : alookup s.taskToDependencies x with
  | none => simp
  | some ds => exact hdnd (x, ds) (mem_of_alookup_eq_some _ _ _ hc)

theorem dependentsOf_nodup (s : SchedulerState) (hWF : GraphWF s) (x : String) :
    (dependentsOf s x).Nodup := by
  obtain ⟨-, ⟨-, htnd⟩, -, -, -⟩ := hWF
  unfold dependentsOf
  cases hc : alookup s.taskToDependents x with
  | none => simp
  | some ds => exact htnd (x, ds) (mem_of_alookup_eq_some _ _ _ hc)

theorem graph_cons1 (s : SchedulerState) (hWF : GraphWF s) (d x : String)
    (h : x ∈ dependentsOf s d) : x ∈ regKeys s ∧ d ∈ depsOf s x := by
  obtain ⟨-, -, hc1, -, -⟩ := hWF
  unfold dependentsOf at h
  cases hc : alookup s.taskToDependents d with
  | none => rw [hc] at h; cases h
  | some bucket =>
    rw [hc] at h
    have hx := hc1 (d, bucket) (mem_of_alookup_eq_some _ _ _ hc) x h
    exact ⟨keys_mem_of_alookup_isSome _ _ hx.1, hx.2⟩

theorem graph_cons2 (s : SchedulerState) (hWF : GraphWF s) (x d : String)
    (hx : x ∈ regKeys s) (hd : d ∈ depsOf s x) : x ∈ dependentsOf s d := by
  obtain ⟨-, -, -, hc2, -⟩ := hWF
  have hsome := alookup_isSome_of_keys_mem _ _ hx
  obtain ⟨ds, hds⟩ := Option.isSome_iff_exists.mp hsome
  unfold depsOf at hd
  rw [hds] at hd
  exact hc2 (x, ds) (mem_of_alookup_eq_some _ _ _ hds) d hd

theorem countP_mem_append_singleton (l proc : List String) (t : String)
    (hnd : l.Nodup) (ht : t ∉ proc) :
    (l.countP fun d => decide (d ∈ proc ++ [t]))
      = (l.countP fun d => decide (d ∈ proc)) + (if t ∈ l then 1 else 0) := by
  induction l with
  | nil => simp
  | cons a rest ih =>
    obtain ⟨ha, hrest⟩ := List.nodup_cons.mp hnd
    rw [List.countP_cons, List.countP_cons, ih hrest]
    by_cases hat : a = t
    · subst hat
      have h1 : decide (a ∈ proc ++ [a]) = true := by simp
      have h2 : decide (a ∈ proc) = false := by simpa using ht
      rw [h1, h2, if_neg ha, if_pos (List.mem_cons_self a rest)]
      simp
    · have h1 : decide (a ∈ proc ++ [t]) = decide (a ∈ proc) := by
        by_cases hap : a ∈ proc
        · simp [hap]
        · simp [hap, hat]
      rw [h1]
      have h2 : (if t ∈ a :: rest then (1 : Nat) else 0)
          = (if t ∈ rest then 1 else 0) := by
        by_cases htr : t ∈ rest
        · rw [if_pos (List.mem_cons_of_mem _ htr), if_pos htr]
        · rw [if_neg ?hneg, if_neg htr]
          case hneg =>
            intro hc
            rcases List.mem_cons.mp hc with h3 | h3
            · exact hat h3.symm
            · exact htr h3
      rw [h2]
      omega

theorem filter_append_singleton_length (l proc : List String) (t : String)
    (hnd : l.Nodup) (ht : t ∉ proc) :
    (l.filter fun d => decide (d ∈ proc ++ [t])).length
      = (l.filter fun d => decide (d ∈ proc)).length + (if t ∈ l then 1 else 0) := by
  rw [← List.countP_eq_length_filter, ← List.countP_eq_length_filter]
  exact countP_mem_append_singleton l proc t hnd ht

/-! ### The Kahn loop invariant -/

/-- The loop invariant of `__has_cycles`: queued and processed tasks are
distinct registered tasks; an unprocessed registered task's count equals the
number of its dependencies not yet processed (unregistered ones never
decrement it); queued tasks have count zero; and every processed task's
dependencies were processed strictly before it. -/
structure KahnInv (s : SchedulerState) (q proc : List String) (deg : String → Int) :
    Prop where
  nodup : (proc ++ q).Nodup
  subR : ∀ x ∈ proc ++ q, x ∈ regKeys s
  degEq : ∀ x ∈ regKeys s, x ∉ proc →
    deg x = ((depsOf s x).length : Int)
      - (((depsOf s x).filter fun d => decide (d ∈ proc)).length : Int)
  qZero : ∀ x ∈ q, deg x = 0
  procOrder : ∀ x ∈ proc, ∀ d ∈ depsOf s x,
    d ∈ proc ∧ proc.indexOf d < proc.indexOf x

theorem kahnInv_step (s : SchedulerState) (hWF : GraphWF s) (t : String)
    (q proc : List String) (deg : String → Int)
    (inv : KahnInv s (t :: q) proc deg) :
    KahnInv s (q ++ (decAll (dependentsOf s t) deg).2) (proc ++ [t])
      (decAll (dependentsOf s t) deg).1 := by
  obtain ⟨hnodup, hsubR, hdegEq, hqZero, hord⟩ := inv
  have hds_nd : (dependentsOf s t).Nodup := dependentsOf_nodup s hWF t
  have hdeg : ∀ x, (decAll (dependentsOf s t) deg).1 x
      = if x ∈ dependentsOf s t then deg x - 1 else deg x :=
    fun x => decAll_deg _ _ hds_nd x
  have hnew_mem : ∀ x, x ∈ (decAll (dependentsOf s t) deg).2 ↔
      x ∈ dependentsOf s t ∧ deg x = 1 := fun x => decAll_newly_mem _ _ hds_nd x
  have hassoc : proc ++ t :: q = (proc ++ [t]) ++ q := by simp
  rw [hassoc] at hnodup hsubR
  have htR : t ∈ regKeys s := hsubR t (by simp)
  have hpt_nd : (proc ++ [t]).Nodup := (List.nodup_append.mp hnodup).1
  have hq_nd : q.Nodup := (List.nodup_append.mp hnodup).2.1
  have hdisj : (proc ++ [t]).Disjoint q := (List.nodup_append.mp hnodup).2.2
  have htnp : t ∉ proc := by
    intro hc
    exact (List.nodup_append.mp hpt_nd).2.2 hc (List.mem_singleton_self t)
  have hdeg_t : deg t = 0 := hqZero t (List.mem_cons_self _ _)
  have hdeps_proc : ∀ d ∈ depsOf s t, d ∈ proc := by
    have he := hdegEq t htR htnp
    rw [hdeg_t] at he
    have hle : ((depsOf s t).filter fun d => decide (d ∈ proc)).length
        ≤ (depsOf s t).length := List.length_filter_le _ _
    have hlen : ((depsOf s t).filter fun d => decide (d ∈ proc)).length
        = (depsOf s t).length := by omega
    intro d hd
    have := List.filter_length_eq_length.mp hlen d hd
    simpa using this
  have hds_iff : ∀ x, x ∈ regKeys s → (x ∈ dependentsOf s t ↔ t ∈ depsOf s x) :=
    fun x hxR => ⟨fun h => (graph_cons1 s hWF t x h).2,
      fun h => graph_cons2 s hWF x t hxR h⟩
  refine ⟨?_, ?_, ?_, ?_, ?_⟩
  · -- nodup
    rw [List.nodup_append]
    refine ⟨hpt_nd, ?_, ?_⟩
    · rw [List.nodup_append]
      refine ⟨hq_nd, decAll_newly_nodup _ _ hds_nd, ?_⟩
      intro a haq hanew
      have h1 := hqZero a (List.mem_cons_of_mem _ haq)
      have h2 := ((hnew_mem a).mp hanew).2
      omega
    · intro a hapt hause
      rcases List.mem_append.mp hause with haq | hanew
      · exact hdisj hapt haq
      · obtain ⟨hads, hadeg⟩ := (hnew_mem a).mp hanew
        have hat : t ∈ depsOf s a := (graph_cons1 s hWF t a hads).2
        rcases List.mem_append.mp hapt with hap | hat1
        · exact htnp (hord a hap t hat).1
        · rw [List.mem_singleton.mp hat1] at hadeg
          omega
  · -- subR
    intro x hx
    rcases List.mem_append.mp hx with h1 | h2
    · exact hsubR x (List.mem_append_left _ h1)
    · rcases List.mem_append.mp h2 with hxq | hxn
      · exact hsubR x (List.mem_append_right _ hxq)
      · exact (graph_cons1 s hWF t x (decAll_newly_subset _ _ x hxn)).1
  · -- degEq
    intro x hxR hxnp'
    have hxp : x ∉ proc := fun hc => hxnp' (List.mem_append_left _ hc)
    have hxt : x ≠ t := fun hc =>
      hxnp' (by rw [hc]; exact List.mem_append_right _ (List.mem_singleton_self t))
    rw [hdeg x]
    have hold := hdegEq x hxR hxp
    have hflt := filter_append_singleton_length (depsOf s x) proc t
      (depsOf_nodup s hWF x) htnp
    by_cases hmem : x ∈ dependentsOf s t
    · have htd : t ∈ depsOf s x := (hds_iff x hxR).mp hmem
      rw [if_pos hmem, hold]
      rw [if_pos htd] at hflt
      rw [hflt]
      push_cast
      ring
    · have htd : t ∉ depsOf s x := fun h => hmem ((hds_iff x hxR).mpr h)
      rw [if_neg hmem, hold]
      rw [if_neg htd] at hflt
      rw [hflt]
      push_cast
      ring
  · -- qZero
    intro x hx
    rcases List.mem_append.mp hx with hxq | hxn
    · have h0 := hqZero x (List.mem_cons_of_mem _ hxq)
      rw [hdeg x]
      by_cases hmem : x ∈ dependentsOf s t
      · have hxR := hsubR x (List.mem_append_right _ hxq)
        have htd := (hds_iff x hxR).mp hmem
        have hxnp : x ∉ proc := fun hc =>
          hdisj (List.mem_append_left _ hc) hxq
        have he := hdegEq x hxR hxnp
        rw [h0] at he
        have hle : ((depsOf s x).filter fun d => decide (d ∈ proc)).length
            ≤ (depsOf s x).length := List.length_filter_le _ _
        have hlen : ((depsOf s x).filter fun d => decide (d ∈ proc)).length
            = (depsOf s x).length := by omega
        have htp : t ∈ proc := by
          have := List.filter_length_eq_length.mp hlen t htd
          simpa using this
        exact absurd htp htnp
      · rw [if_neg hmem]
        exact h0
    · obtain ⟨hads, hadeg⟩ := (hnew_mem x).mp hxn
      rw [hdeg x, if_pos hads]
      omega
  · -- procOrder
    intro x hx d hd
    rcases List.mem_append.mp hx with hxp | hxt
    · obtain ⟨hdp, hlt⟩ := hord x hxp d hd
      refine ⟨List.mem_append_left _ hdp, ?_⟩
      rw [List.indexOf_append_of_mem hdp, List.indexOf_append_of_mem hxp]
      exact hlt
    · rw [List.mem_singleton.mp hxt] at hd ⊢
      have hdp : d ∈ proc := hdeps_proc d hd
      refine ⟨List.mem_append_left _ hdp, ?_⟩
      rw [List.indexOf_append_of_mem hdp, List.indexOf_append_of_not_mem htnp]
      have h1 : List.indexOf d proc < proc.length := List.indexOf_lt_length.mpr hdp
      omega

/-- The facts about the processed list that survive the loop: the processed
tasks are distinct registered tasks and each was processed strictly after
all of its dependencies. -/
def ProcGood (s : SchedulerState) (proc : List String) : Prop :=
  proc.Nodup ∧ (∀ x ∈ proc, x ∈ regKeys s) ∧
    ∀ x ∈ proc, ∀ d ∈ depsOf s x, d ∈ proc ∧ proc.indexOf d < proc.indexOf x

theorem kahnInv_procGood (s : SchedulerState) (q proc : List String)
    (deg : String → Int) (inv : KahnInv s q proc deg) : ProcGood s proc := by
  obtain ⟨hnodup, hsubR, -, -, hord⟩ := inv
  exact ⟨(List.nodup_append.mp hnodup).1,
    fun x hx => hsubR x (List.mem_append_left _ hx), hord⟩

theorem kahnLoop_procGood (s : SchedulerState) (hWF : GraphWF s) :
    ∀ fuel q (deg : String → Int) proc, KahnInv s q proc deg →
      ProcGood s (kahnLoop s fuel q deg proc) := by
  intro fuel
  induction fuel with
  | zero =>
    intro q deg proc inv
    exact kahnInv_procGood s _ _ _ inv
  | succ n ih =>
    intro q deg proc inv
    cases q with
    | nil => exact kahnInv_procGood s _ _ _ inv
    | cons t q2 =>
      show ProcGood s (kahnLoop s n (q2 ++ (decAll (dependentsOf s t) deg).2)
        (decAll (dependentsOf s t) deg).1 (proc ++ [t]))
      exact ih _ _ _ (kahnInv_step s hWF t q2 proc deg inv)

theorem kahnInv_init (s : SchedulerState) (hWF : GraphWF s) :
    KahnInv s ((regKeys s).filter fun t => kahnDeg0 s t == 0) [] (kahnDeg0 s) := by
  obtain ⟨⟨hndK, -⟩, -, -, -, -⟩ := hWF
  refine ⟨?_, ?_, ?_, ?_, ?_⟩
  · simpa using hndK.filter _
  · intro x hx
    rw [List.nil_append] at hx
    exact List.mem_of_mem_filter hx
  · intro x hx hnp
    simp [kahnDeg0, depsOf]
  · intro x hx
    have := (List.mem_filter.mp hx).2
    simpa using this
  · intro x hx
    cases hx

theorem kahnProcessed_procGood (s : SchedulerState) (hWF : GraphWF s) :
    ProcGood s (kahnProcessed s) :=
  kahnLoop_procGood s hWF _ _ _ _ (kahnInv_init s hWF)

/-- If the traversal processed as many tasks as are registered, it processed
them all. -/
theorem kahnProcessed_full (s : SchedulerState) (hWF : GraphWF s)
    (hlen : (kahnProcessed s).length = (regKeys s).length) :
    ∀ y ∈ regKeys s, y ∈ kahnProcessed s := by
  have hndK : (regKeys s).Nodup := hWF.1.1
  obtain ⟨hnd, hsub, -⟩ := kahnProcessed_procGood s hWF
  have hsubF : (kahnProcessed s).toFinset ⊆ (regKeys s).toFinset := by
    intro y hy
    exact List.mem_toFinset.mpr (hsub y (List.mem_toFinset.mp hy))
  have hcard : (regKeys s).toFinset.card ≤ (kahnProcessed s).toFinset.card := by
    have h1 : (kahnProcessed s).toFinset.card = (kahnProcessed s).length :=
      List.toFinset_card_of_nodup hnd
    have h2 : (regKeys s).toFinset.card = (regKeys s).length :=
      List.toFinset_card_of_nodup hndK
    omega
  have heq := Finset.eq_of_subset_of_card_le hsubF hcard
  intro y hy
  exact List.mem_toFinset.mp (heq ▸ List.mem_toFinset.mpr hy)

/-- The registered graph contains a dependency cycle: a nonempty list
`x :: rest` of registered tasks in which each task lists the next among its
dependencies, and the last lists `x` again. -/
def HasCycle (s : SchedulerState) : Prop :=
  ∃ x rest, (∀ u ∈ x :: rest, u ∈ regKeys s) ∧
    List.Chain (fun a b => b ∈ depsOf s a) x (rest ++ [x])

theorem chain_next_or_last (r : String → String → Prop) :
    ∀ (l : List String) (x : String), List.Chain r x l →
      ∀ u ∈ x :: l, (∃ v ∈ l, r u v) ∨ u = (x :: l).getLast (List.cons_ne_nil _ _) := by
  intro l
  induction l with
  | nil =>
    intro x hch u hu
    right
    rcases List.mem_cons.mp hu with h | h
    · rw [h]
      exact (List.getLast_singleton x _).symm
    · cases h
  | cons y l2 ih =>
    intro x hch u hu
    obtain ⟨hr, hch2⟩ := List.chain_cons.mp hch
    rcases List.mem_cons.mp hu with h | h
    · rw [h]
      exact Or.inl ⟨y, List.mem_cons_self _ _, h ▸ hr⟩
    · rcases ih y hch2 u h with ⟨v, hv, hrv⟩ | hlast
      · exact Or.inl ⟨v, List.mem_cons_of_mem _ hv, hrv⟩
      · right
        rw [List.getLast_cons (List.cons_ne_nil _ _)]
        exact hlast

theorem cycle_mem_next (s : SchedulerState) (x : String) (rest : List String)
    (hch : List.Chain (fun a b => b ∈ depsOf s a) x (rest ++ [x])) :
    ∀ u ∈ x :: rest, ∃ v ∈ x :: rest, v ∈ depsOf s u := by
  have hsub : ∀ v ∈ rest ++ [x], v ∈ x :: rest := by
    intro v hv
    rcases List.mem_append.mp hv with h | h
    · exact List.mem_cons_of_mem _ h
    · rw [List.mem_singleton.mp h]
      exact List.mem_cons_self _ _
  have hx_succ : ∃ v ∈ x :: rest, v ∈ depsOf s x := by
    cases hrx : rest ++ [x] with
    | nil =>
      exact absurd hrx (by simp)
    | cons h1 t1 =>
      rw [hrx] at hch
      obtain ⟨hr, -⟩ := List.chain_cons.mp hch
      exact ⟨h1, hsub h1 (by rw [hrx]; exact List.mem_cons_self _ _), hr⟩
  intro u hu
  have hu2 : u ∈ x :: (rest ++ [x]) := by
    rcases List.mem_cons.mp hu with h | h
    · rw [h]
      exact List.mem_cons_self _ _
    · exact List.mem_cons_of_mem _ (List.mem_append_left _ h)
  rcases chain_next_or_last _ (rest ++ [x]) x hch u hu2 with ⟨v, hv, hrv⟩ | hlast
  · exact ⟨v, hsub v hv, hrv⟩
  · have hux : u = x := by
      rw [hlast]
      have : x :: (rest ++ [x]) = (x :: rest) ++ [x] := by simp
      rw [List.getLast_congr _ _ this]
      exact List.getLast_concat _
    rw [hux]
    exact hx_succ

/-- C7: on a well-formed registered graph containing a dependency cycle, the
first use of `ready_tasks` raises the `SchedulingException` naming circular
dependencies; the detection is Kahn's algorithm (zero-dependency seeds,
counts decremented through the dependents buckets) and it reports a cycle
exactly when the processed count differs from the registered count. -/
theorem C7_cycle_detection (s : SchedulerState) (hWF : GraphWF s)
    (hcyc : HasCycle s) :
    has_cycles s = true ∧
    readyTasksFirstUse s = some "Dependency graph contains circular dependencies" ∧
    (has_cycles s = true ↔ (kahnProcessed s).length ≠ (regKeys s).length) := by
  have hne : (kahnProcessed s).length ≠ (regKeys s).length := by
    intro hlen
    have hall := kahnProcessed_full s hWF hlen
    obtain ⟨x, rest, hreg, hch⟩ := hcyc
    have hnext := cycle_mem_next s x rest hch
    obtain ⟨hnd, hsub, hord⟩ := kahnProcessed_procGood s hWF
    have hdesc : ∀ n, ∀ u, u ∈ x :: rest → (kahnProcessed s).indexOf u = n → False := by
      intro n
      induction n using Nat.strong_induction_on with
      | _ n ih =>
        intro u hu hidx
        obtain ⟨v, hv, hvd⟩ := hnext u hu
        have huP : u ∈ kahnProcessed s := hall u (hreg u hu)
        obtain ⟨hvP, hlt⟩ := hord u huP v hvd
        exact ih _ (hidx ▸ hlt) v hv rfl
    exact hdesc _ x (List.mem_cons_self _ _) rfl
  refine ⟨?_, ?_, ?_⟩
  · simp [has_cycles, hne]
  · simp [readyTasksFirstUse, has_cycles, hne]
  · simp [has_cycles]

/-- A registered two-task cycle: `"a"` depends on `"b"` and vice versa
(spec scenario S5 in miniature). -/
def cycleDemoState : SchedulerState :=
  { tasks := [("a", TaskRec.initial), ("b", TaskRec.initial)],
    taskToDependencies := [("a", ["b"]), ("b", ["a"])],
    taskToDependents := [("b", ["a"]), ("a", ["b"])] }

/-- Witness for C7 on the concrete two-task cycle. -/
theorem C7_cycle_detection_witness :
    (GraphWF cycleDemoState ∧ HasCycle cycleDemoState) ∧
    has_cycles cycleDemoState = true ∧
    readyTasksFirstUse cycleDemoState
      = some "Dependency graph contains circular dependencies" := by
  have hWF : GraphWF cycleDemoState := by decide
  have hcyc : HasCycle cycleDemoState := ⟨"a", ["b"], by decide,
    List.Chain.cons (by decide) (List.Chain.cons (by decide) List.Chain.nil)⟩
  have h := C7_cycle_detection cycleDemoState hWF hcyc
  exact ⟨⟨hWF, hcyc⟩, h.1, h.2.1⟩

/-- C10: a registered unit with an unregistered prerequisite is never
counted by the cycle check (the prerequisite has no count of its own and
never decrements its dependent's), so even an acyclic graph of this shape
raises the circular-dependencies error on first use of the iterator. -/
theorem C10_unregistered_prereq_flagged_as_cycle (s : SchedulerState)
    (hWF : GraphWF s) (t d : String) (ht : t ∈ regKeys s) (hd : d ∈ depsOf s t)
    (hdnr : d ∉ regKeys s) :
    has_cycles s = true ∧
    readyTasksFirstUse s = some "Dependency graph contains circular dependencies" := by
  obtain ⟨hnd, hsub, hord⟩ := kahnProcessed_procGood s hWF
  have htnp : t ∉ kahnProcessed s := by
    intro hc
    exact hdnr (hsub d (hord t hc d hd).1)
  have hne : (kahnProcessed s).length ≠ (regKeys s).length := by
    intro hlen
    exact htnp (kahnProcessed_full s hWF hlen t ht)
  constructor
  · simp [has_cycles, hne]
  · simp [readyTasksFirstUse, has_cycles, hne]

/-- An acyclic graph in which registered `"a"` names the never-registered
`"b"` as a prerequisite. -/
def unregisteredDemoState : SchedulerState :=
  { tasks := [("a", TaskRec.initial), ("b", TaskRec.initial)],
    taskToDependencies := [("a", ["b"])],
    taskToDependents := [("b", ["a"])] }

/-- Witness for C10 on the concrete graph with an unregistered
prerequisite. -/
theorem C10_unregistered_prereq_flagged_as_cycle_witness :
    (GraphWF unregisteredDemoState ∧ "a" ∈ regKeys unregisteredDemoState ∧
      "b" ∈ depsOf unregisteredDemoState "a" ∧
      "b" ∉ regKeys unregisteredDemoState) ∧
    has_cycles unregisteredDemoState = true ∧
    readyTasksFirstUse unregisteredDemoState
      = some "Dependency graph contains circular dependencies" := by
  have hWF : GraphWF unregisteredDemoState := by decide
  have h := C10_unregistered_prereq_flagged_as_cycle unregisteredDemoState hWF "a" "b"
    (by decide) (by decide) (by decide)
  exact ⟨⟨hWF, by decide, by decide, by decide⟩, h⟩

/-! ## Executor model (`executor.py`) -/

/-- One worker pool (`ThreadPoolExecutor`) as the executor observes it: the
fixed worker count it was created with, the submissions made to it in order,
and the argument of the `shutdown(wait=...)` call once made. -/
structure PoolRec where
  maxWorkers : Nat
  submitted : List String
  shutdownWait : Option Bool
deriving DecidableEq, Repr

/-- The `Executor`'s own state: `workers_per_tag` and the lazily populated
tag-to-pool dict. -/
structure ExecutorState where
  workersPerTag : Nat
  tagToThreadPool : List (String × PoolRec)
deriving DecidableEq, Repr

/-- `Executor.__ensure_thread_pool`: create the tag's pool on first use,
with `max_workers` equal to `workers_per_tag`. -/
def ensure_thread_pool (es : ExecutorState) (tag : String) : ExecutorState :=
  if (alookup es.tagToThreadPool tag).isSome then es
  else { es with tagToThreadPool :=
    es.tagToThreadPool ++ [(tag, ⟨es.workersPerTag, [], none⟩)] }

/-- `thread_pool.submit(task.execute_task)`: record the task id on its tag's
pool. -/
def submitTask (es : ExecutorState) (tag id : String) : ExecutorState :=
  { es with tagToThreadPool := es.tagToThreadPool.map fun p =>
      if p.1 = tag then (p.1, { p.2 with submitted := p.2.submitted ++ [id] }) else p }

/-- `Executor.shutdown`: call `shutdown(wait)` on every pool created. -/
def shutdownExec (es : ExecutorState) (wait : Bool) : ExecutorState :=
  { es with tagToThreadPool := es.tagToThreadPool.map fun p =>
      (p.1, { p.2 with shutdownWait := some wait }) }

/-- The body of `for task in ready_tasks:` in `Executor.run`, for one
yielded `(tag, id)`. -/
def runDispatchOne (es : ExecutorState) (p : String × String) : ExecutorState :=
  submitTask (ensure_thread_pool es p.1) p.1 p.2

/-- `Executor.run`, driven by the `(tag, id)` sequence the readiness
iterator yields: dispatch every yielded task, then — in the `finally` —
`shutdown(wait=True)` on every pool. -/
def executor_run (es : ExecutorState) (yielded : List (String × String)) :
    ExecutorState :=
  shutdownExec (yielded.foldl runDispatchOne es) true

/-- Some pool of the executor under that tag has received this task id. -/
def poolHas (es : ExecutorState) (tag id : String) : Prop :=
  ∃ rec, (tag, rec) ∈ es.tagToThreadPool ∧ id ∈ rec.submitted

/-! ### Executor lemmas -/

theorem poolHas_runDispatchOne (es : ExecutorState) (q : String × String)
    (tag id : String) (h : poolHas es tag id) :
    poolHas (runDispatchOne es q) tag id := by
  obtain ⟨rec, hmem, hid⟩ := h
  have hmem2 : (tag, rec) ∈ (ensure_thread_pool es q.1).tagToThreadPool := by
    unfold ensure_thread_pool
    split
    · exact hmem
    · exact List.mem_append_left _ hmem
  by_cases htag : tag = q.1
  · subst htag
    refine ⟨{ rec with submitted := rec.submitted ++ [q.2] },
      List.mem_map.mpr ⟨(q.1, rec), hmem2, by rw [if_pos rfl]⟩,
      List.mem_append_left _ hid⟩
  · exact ⟨rec, List.mem_map.mpr ⟨(tag, rec), hmem2, by rw [if_neg htag]⟩, hid⟩

theorem poolHas_dispatch_self (es : ExecutorState) (q : String × String) :
    poolHas (runDispatchOne es q) q.1 q.2 := by
  have hsome : (alookup (ensure_thread_pool es q.1).tagToThreadPool q.1).isSome = true := by
    unfold ensure_thread_pool
    split
    · assumption
    · rw [alookup_append_right]
      · simp [alookup]
      · cases hc : alookup es.tagToThreadPool q.1
        · rfl
        · rename_i hnot _
          rw [hc] at hnot
          simp at hnot
  obtain ⟨rec, hrec⟩ := Option.isSome_iff_exists.mp hsome
  have hmem := mem_of_alookup_eq_some _ _ _ hrec
  exact ⟨{ rec with submitted := rec.submitted ++ [q.2] },
    List.mem_map.mpr ⟨(q.1, rec), hmem, by rw [if_pos rfl]⟩,
    List.mem_append_right _ (List.mem_singleton_self _)⟩

theorem poolHas_shutdownExec (es : ExecutorState) (wait : Bool) (tag id : String)
    (h : poolHas es tag id) : poolHas (shutdownExec es wait) tag id := by
  obtain ⟨rec, hmem, hid⟩ := h
  exact ⟨{ rec with shutdownWait := some wait },
    List.mem_map.mpr ⟨(tag, rec), hmem, rfl⟩, hid⟩

theorem foldl_dispatch_mono (rest : List (String × String)) :
    ∀ es tag id, poolHas es tag id →
      poolHas (rest.foldl runDispatchOne es) tag id := by
  induction rest with
  | nil =>
    intro es tag id h
    exact h
  | cons q rest2 ih =>
    intro es tag id h
    rw [List.foldl_cons]
    exact ih _ _ _ (poolHas_runDispatchOne es q tag id h)

theorem foldl_dispatch_poolHas (yielded : List (String × String)) :
    ∀ es, ∀ p ∈ yielded, poolHas (yielded.foldl runDispatchOne es) p.1 p.2 := by
  induction yielded with
  | nil => intro es p hp; cases hp
  | cons q rest ih =>
    intro es p hp
    rw [List.foldl_cons]
    rcases List.mem_cons.mp hp with h1 | h1
    · subst h1
      exact foldl_dispatch_mono rest _ _ _ (poolHas_dispatch_self es p)
    · exact ih _ p h1

theorem keys_runDispatchOne (es : ExecutorState) (q : String × String) :
    (runDispatchOne es q).tagToThreadPool.map Prod.fst
      = (ensure_thread_pool es q.1).tagToThreadPool.map Prod.fst := by
  unfold runDispatchOne submitTask
  rw [List.map_map]
  apply List.map_congr_left
  intro p hp
  by_cases hq : p.1 = q.1
  · simp [hq]
  · simp [hq]

theorem keys_ensure (es : ExecutorState) (tag : String) :
    (ensure_thread_pool es tag).tagToThreadPool.map Prod.fst
      = if (alookup es.tagToThreadPool tag).isSome then
          es.tagToThreadPool.map Prod.fst
        else es.tagToThreadPool.map Prod.fst ++ [tag] := by
  unfold ensure_thread_pool
  split
  · rfl
  · simp

theorem nodup_keys_runDispatchOne (es : ExecutorState) (q : String × String)
    (h : (es.tagToThreadPool.map Prod.fst).Nodup) :
    ((runDispatchOne es q).tagToThreadPool.map Prod.fst).Nodup := by
  rw [keys_runDispatchOne, keys_ensure]
  split
  · exact h
  · rename_i hnot
    rw [List.nodup_append]
    refine ⟨h, List.nodup_singleton _, ?_⟩
    intro a ha hb
    rw [List.mem_singleton.mp hb] at ha
    exact hnot (alookup_isSome_of_keys_mem _ _ ha)

theorem maxWorkers_runDispatchOne (es : ExecutorState) (q : String × String)
    (w : Nat) (hw : es.workersPerTag = w)
    (h : ∀ r ∈ es.tagToThreadPool, r.2.maxWorkers = w) :
    (runDispatchOne es q).workersPerTag = w ∧
      ∀ r ∈ (runDispatchOne es q).tagToThreadPool, r.2.maxWorkers = w := by
  refine ⟨?_, ?_⟩
  · unfold runDispatchOne submitTask ensure_thread_pool
    split <;> exact hw
  intro r hr
  unfold runDispatchOne submitTask at hr
  obtain ⟨p0, hp0, hform⟩ := List.mem_map.mp hr
  have hp0max : p0.2.maxWorkers = w := by
    unfold ensure_thread_pool at hp0
    split at hp0
    · exact h p0 hp0
    · rcases List.mem_append.mp hp0 with h1 | h1
      · exact h p0 h1
      · rw [List.mem_singleton.mp h1]
        exact hw
  rw [← hform]
  by_cases hq : p0.1 = q.1
  · rw [if_pos hq]
    exact hp0max
  · rw [if_neg hq]
    exact hp0max

theorem keys_subset_runDispatchOne (es : ExecutorState) (q : String × String)
    (k : String) (hk : k ∈ (runDispatchOne es q).tagToThreadPool.map Prod.fst) :
    k ∈ es.tagToThreadPool.map Prod.fst ∨ k = q.1 := by
  rw [keys_runDispatchOne, keys_ensure] at hk
  split at hk
  · exact Or.inl hk
  · rcases List.mem_append.mp hk with h1 | h1
    · exact Or.inl h1
    · exact Or.inr (List.mem_singleton.mp h1)

theorem foldl_dispatch_nodup (yielded : List (String × String)) :
    ∀ es, (es.tagToThreadPool.map Prod.fst).Nodup →
      ((yielded.foldl runDispatchOne es).tagToThreadPool.map Prod.fst).Nodup := by
  induction yielded with
  | nil =>
    intro es h
    exact h
  | cons q rest ih =>
    intro es h
    rw [List.foldl_cons]
    exact ih _ (nodup_keys_runDispatchOne es q h)

theorem foldl_dispatch_maxWorkers (yielded : List (String × String)) (w : Nat) :
    ∀ es, es.workersPerTag = w → (∀ r ∈ es.tagToThreadPool, r.2.maxWorkers = w) →
      ∀ r ∈ (yielded.foldl runDispatchOne es).tagToThreadPool, r.2.maxWorkers = w := by
  induction yielded with
  | nil =>
    intro es hw h
    exact h
  | cons q rest ih =>
    intro es hw h
    rw [List.foldl_cons]
    obtain ⟨hw2, h2⟩ := maxWorkers_runDispatchOne es q w hw h
    exact ih _ hw2 h2

theorem foldl_dispatch_keys_subset (yielded : List (String × String)) :
    ∀ es k, k ∈ (yielded.foldl runDispatchOne es).tagToThreadPool.map Prod.fst →
      k ∈ es.tagToThreadPool.map Prod.fst ∨ k ∈ yielded.map Prod.fst := by
  induction yielded with
  | nil =>
    intro es k hk
    exact Or.inl hk
  | cons q rest ih =>
    intro es k hk
    rw [List.foldl_cons] at hk
    rcases ih _ k hk with h1 | h1
    · rcases keys_subset_runDispatchOne es q k h1 with h2 | h2
      · exact Or.inl h2
      · refine Or.inr ?_
        rw [h2]
        exact List.mem_map.mpr ⟨q, List.mem_cons_self _ _, rfl⟩
    · refine Or.inr ?_
      obtain ⟨p0, hp0, hform⟩ := List.mem_map.mp h1
      exact List.mem_map.mpr ⟨p0, List.mem_cons_of_mem _ hp0, hform⟩

/-- C9: `Executor.run`, fed the sequence the readiness iterator yields,
submits every yielded unit to the pool keyed by the unit's tag; pools are
created at most once per tag, only for tags actually yielded, with
`max_workers` equal to `workers_per_tag`; and once the iterator is
exhausted, every created pool has received `shutdown(wait=True)`. -/
theorem C9_executor_run (w : Nat) (yielded : List (String × String)) :
    (∀ p ∈ yielded, poolHas (executor_run ⟨w, []⟩ yielded) p.1 p.2) ∧
    ((executor_run ⟨w, []⟩ yielded).tagToThreadPool.map Prod.fst).Nodup ∧
    (∀ r ∈ (executor_run ⟨w, []⟩ yielded).tagToThreadPool,
      r.2.maxWorkers = w ∧ r.2.shutdownWait = some true ∧
        r.1 ∈ yielded.map Prod.fst) := by
  have hkeys : (shutdownExec (yielded.foldl runDispatchOne ⟨w, []⟩)
        true).tagToThreadPool.map Prod.fst
      = (yielded.foldl runDispatchOne ⟨w, []⟩).tagToThreadPool.map Prod.fst := by
    unfold shutdownExec
    rw [List.map_map]
    apply List.map_congr_left
    intro p hp
    rfl
  refine ⟨?_, ?_, ?_⟩
  · intro p hp
    exact poolHas_shutdownExec _ _ _ _ (foldl_dispatch_poolHas yielded _ p hp)
  · show ((shutdownExec (yielded.foldl runDispatchOne ⟨w, []⟩)
      true).tagToThreadPool.map Prod.fst).Nodup
    rw [hkeys]
    exact foldl_dispatch_nodup yielded _ (by simp)
  · intro r hr
    have hr2 : r ∈ (shutdownExec (yielded.foldl runDispatchOne ⟨w, []⟩)
        true).tagToThreadPool := hr
    unfold shutdownExec at hr2
    obtain ⟨p0, hp0, hform⟩ := List.mem_map.mp hr2
    have hmax := foldl_dispatch_maxWorkers yielded w ⟨w, []⟩ rfl
      (by intro r0 hr0; cases hr0) p0 hp0
    refine ⟨?_, ?_, ?_⟩
    · rw [← hform]
      exact hmax
    · rw [← hform]
    · have hk : p0.1 ∈ (yielded.foldl runDispatchOne
          ⟨w, []⟩).tagToThreadPool.map Prod.fst :=
        List.mem_map.mpr ⟨p0, hp0, rfl⟩
      rcases foldl_dispatch_keys_subset yielded _ p0.1 hk with h1 | h1
      · simp at h1
      · rw [← hform]
        exact h1

/-- Witness for C9: two tags, three units, two workers per tag. -/
theorem C9_executor_run_witness :
    poolHas (executor_run ⟨2, []⟩ [("t1", "a"), ("t1", "b"), ("t2", "c")]) "t1" "b" ∧
    ((executor_run ⟨2, []⟩
      [("t1", "a"), ("t1", "b"), ("t2", "c")]).tagToThreadPool.map Prod.fst).Nodup ∧
    ∀ r ∈ (executor_run ⟨2, []⟩
        [("t1", "a"), ("t1", "b"), ("t2", "c")]).tagToThreadPool,
      r.2.maxWorkers = 2 ∧ r.2.shutdownWait = some true := by
  have h := C9_executor_run 2 [("t1", "a"), ("t1", "b"), ("t2", "c")]
  exact ⟨h.1 ("t1", "b") (by decide), h.2.1,
    fun r hr => ⟨(h.2.2 r hr).1, (h.2.2 r hr).2.1⟩⟩

/-! ## Whole-system small-step semantics

Interleaving semantics of one `Executor.run` against the scheduler, at the
statement granularity of the source.  The dispatcher thread (which drives
the `ready_tasks` generator) holds the scheduler's condition lock the whole
time it is in the generator, releasing it only inside `Condition.wait` and
on termination.  A worker executing `Task.execute_task` takes no lock: the
cancel-flag read, the status writes and the result write are bare attribute
assignments, and the cascade hooks call `dependent.cancel()` before
entering `with self.__condition` for the broadcast.  Consecutive actions of
one thread are merged into single steps where no other thread's visible
state changes in between; every trace of this model is therefore a legal
interleaving of the source. -/

/-- Where a worker for one task stands in `Task.execute_task`. -/
inductive WorkerPC
  | unsubmitted
  | atCancelCheck
  | atSetResult
  | atSetStatusOk
  | atSetStatusFail
  | atCancelDeps
  | atNotify
  | doneWorker
deriving DecidableEq, Repr

/-- Where the dispatcher thread stands in the `ready_tasks` loop. -/
inductive DispatcherPC
  | scanning
  | waitingCV
  | finishedDispatch
deriving DecidableEq, Repr

structure Sys where
  sched : SchedulerState
  wpc : List (String × WorkerPC)
  dpc : DispatcherPC
  lockHeld : Bool
  notified : Bool
deriving DecidableEq, Repr

def wpcOf (sys : Sys) (t : String) : WorkerPC :=
  (alookup sys.wpc t).getD .unsubmitted

def setWpc (sys : Sys) (t : String) (pc : WorkerPC) : Sys :=
  { sys with wpc := sys.wpc.map fun p => if p.1 = t then (p.1, pc) else p }

def setTaskStatus (sys : Sys) (t : String) (st : TaskStatus) : Sys :=
  { sys with sched := updateTask sys.sched t fun r => { r with status := st } }

def setTaskResult (sys : Sys) (t : String) (res : Except Nat Nat) : Sys :=
  { sys with sched := updateTask sys.sched t fun r => { r with result := some res } }

/-- One step of the worker running `execute_task` for task `t`; `perform`
gives each task's `execute` outcome.  The status writes and the cascade
cancels need no lock; only the hook's `notify_all` blocks on the condition
lock. -/
def workerStep (perform : String → Except Nat Nat) (sys : Sys) (t : String) :
    Option Sys :=
  match wpcOf sys t with
  | .unsubmitted => none
  | .doneWorker => none
  | .atCancelCheck =>
    if canceledOf sys.sched t then
      some (setWpc (setTaskStatus sys t .canceled) t .atCancelDeps)
    else
      some (setWpc (setTaskStatus sys t .running) t .atSetResult)
  | .atSetResult =>
    match perform t with
    | .ok v => some (setWpc (setTaskResult sys t (.ok v)) t .atSetStatusOk)
    | .error e => some (setWpc (setTaskResult sys t (.error e)) t .atSetStatusFail)
  | .atSetStatusOk => some (setWpc (setTaskStatus sys t .completed) t .atNotify)
  | .atSetStatusFail => some (setWpc (setTaskStatus sys t .failed) t .atCancelDeps)
  | .atCancelDeps =>
    some (setWpc
      { sys with sched := (dependentsOf sys.sched t).foldl cancelTask sys.sched }
      t .atNotify)
  | .atNotify =>
    if sys.lockHeld then none
    else some (setWpc { sys with notified := true } t .doneWorker)

/-- Mark a yielded batch as picked up: the executor has submitted each task
and a pool worker stands at the cancel-flag check. -/
def submitBatch (sys : Sys) (batch : List String) : Sys :=
  batch.foldl (fun acc t => setWpc acc t .atCancelCheck) sys

/-- One step of the dispatcher thread: terminate when nothing is PENDING,
yield-and-submit the ready batch (marking it SCHEDULED) when one exists,
otherwise release the lock and wait; wake only after a broadcast. -/
def dispatcherStep (sys : Sys) : Option Sys :=
  match sys.dpc with
  | .finishedDispatch => none
  | .waitingCV =>
    if sys.notified then
      some { sys with dpc := .scanning, lockHeld := true, notified := false }
    else none
  | .scanning =>
    if hasPendingTasks sys.sched = false then
      some { sys with dpc := .finishedDispatch, lockHeld := false }
    else
      match collectReady sys.sched with
      | [] => some { sys with dpc := .waitingCV, lockHeld := false, notified := false }
      | t :: rest =>
        some (submitBatch
          { sys with sched := markScheduledAll sys.sched (t :: rest) } (t :: rest))

inductive SysAction
  | dispatch
  | work (t : String)
deriving DecidableEq, Repr

def sysStep (perform : String → Except Nat Nat) (sys : Sys) :
    SysAction → Option Sys
  | .dispatch => dispatcherStep sys
  | .work t => workerStep perform sys t

/-- Run a candidate interleaving; `none` when some action was not enabled. -/
def runTrace (perform : String → Except Nat Nat) (sys : Sys)
    (acts : List SysAction) : Option Sys :=
  acts.foldl (fun osys a => osys.bind fun s2 => sysStep perform s2 a) (some sys)

/-- The two-task registered graph for the race: `"t"` depends on `"d"`,
both hooked up by the scheduler, dispatcher inside the generator. -/
def raceInitSched : SchedulerState :=
  { tasks := [("d", ⟨.pending, false, none, true, true, true⟩),
              ("t", ⟨.pending, false, none, true, true, true⟩)],
    taskToDependencies := [("d", []), ("t", ["d"])],
    taskToDependents := [("d", ["t"])] }

def raceInit : Sys :=
  { sched := raceInitSched,
    wpc := [("d", .unsubmitted), ("t", .unsubmitted)],
    dpc := .scanning, lockHeld := true, notified := false }

/-- `"d"`'s `execute` raises; every other `execute` returns a value. -/
def racePerform : String → Except Nat Nat :=
  fun id => if id = "d" then .error 0 else .ok 1

/-- The racy interleaving: the dispatcher yields `"d"`; `"d"`'s worker runs
up to and including the `status := FAILED` write but is preempted before its
failed hook cancels the dependents; the dispatcher (which was never blocked
— it holds the lock, and no step here needs it) re-scans, sees the FAILED
prerequisite as terminal and `"t"` still uncancelled, and yields `"t"`;
`"t"`'s worker then checks the (still clear) cancel flag and runs to
COMPLETED. -/
def raceTrace : List SysAction :=
  [.dispatch, .work "d", .work "d", .work "d", .dispatch,
   .work "t", .work "t", .work "t"]

/-- C8 (refuted on the code by a reachable interleaving): after `raceTrace`,
which every scheduling of the source's threads may produce, task `"t"` is
COMPLETED while its prerequisite `"d"` is FAILED and `"t"`'s cancel flag was
never set — the failed hook of `"d"` had not yet cancelled the dependents
when `"t"` was yielded and checked its flag.  The spec's invariant that a
COMPLETED unit's prerequisites are all COMPLETED does not hold of the
code. -/
theorem C8_race_completed_with_failed_prereq :
    (runTrace racePerform raceInit raceTrace).isSome = true ∧
    statusOf ((runTrace racePerform raceInit raceTrace).getD raceInit).sched "t"
      = .completed ∧
    statusOf ((runTrace racePerform raceInit raceTrace).getD raceInit).sched "d"
      = .failed ∧
    "d" ∈ depsOf ((runTrace racePerform raceInit raceTrace).getD raceInit).sched "t" ∧
    canceledOf ((runTrace racePerform raceInit raceTrace).getD raceInit).sched "t"
      = false ∧
    wpcOf ((runTrace racePerform raceInit raceTrace).getD raceInit) "d"
      = .atCancelDeps := by
  decide
